import Mathlib

/-!
# Verification of `parser.go` (dictionary crawler)

A shallow embedding of the text normaliser `formatSentence`, of the StageLink
link filter installed by `setupCollectors`, and of the insert sequence issued
by `parseEntry`, followed by the properties proved about them.

A Go string is a sequence of bytes.  `formatSentenceBytes` embeds
`formatSentence` on bytes; `formatSentence` embeds it on well-formed UTF-8 text,
read as its list of code points (`List Char`), where the byte test
`s[len(s)-1] == ':'` is a test on the last code point.  The theorem
`formatSentenceBytes_utf8` shows that the two agree on every well-formed text.
-/

set_option autoImplicit false

namespace Parser

/-- A well-formed Go string, read as its sequence of code points. -/
abbrev Str := List Char

/-- The arrow glyph `→` (U+2192) that `formatSentence` removes. -/
def arrow : Char := Char.ofNat 0x2192

/-- Run-time failures of the Go program that the embedding distinguishes. -/
inductive Panic where
  | indexOutOfRange
  deriving DecidableEq, Repr

deriving instance DecidableEq for Except

/-! ## Library functions used by `formatSentence` -/

/-- Go `unicode.IsSpace`: the Latin-1 spaces `\t \n \v \f \r`, space, U+0085 and
U+00A0, and beyond Latin-1 the code points with the `White_Space` property. -/
def isSpace (c : Char) : Bool :=
  let n := c.toNat
  (9 ≤ n && n ≤ 13) || n == 0x20 || n == 0x85 || n == 0xA0 || n == 0x1680 ||
  (0x2000 ≤ n && n ≤ 0x200A) || n == 0x2028 || n == 0x2029 || n == 0x202F ||
  n == 0x205F || n == 0x3000

/-- Go `strings.TrimLeftFunc(s, unicode.IsSpace)`. -/
def TrimLeft (s : Str) : Str := s.dropWhile isSpace

/-- Go `strings.TrimRightFunc(s, unicode.IsSpace)`. -/
def TrimRight (s : Str) : Str := (s.reverse.dropWhile isSpace).reverse

/-- Go `strings.TrimSpace`: leading and trailing white space removed. -/
def TrimSpace (s : Str) : Str := TrimRight (TrimLeft s)

/-- Removes the first `n` occurrences of the code point `old`, scanning from the
left. -/
def removeUpTo (old : Char) : Nat → Str → Str
  | 0, s => s
  | _ + 1, [] => []
  | n + 1, c :: cs =>
    if c = old then removeUpTo old n cs else c :: removeUpTo old (n + 1) cs

/-- Go `strings.Replace(s, old, "", n)` for a one-code-point `old`, the only way
the program calls it: the first `n` occurrences of `old` are deleted, all of
them when `n < 0` (there are at most `len(s)` occurrences). -/
def Replace (s : Str) (old : Char) (n : Int) : Str :=
  if n < 0 then removeUpTo old s.length s else removeUpTo old n.toNat s

/-! ## `formatSentence` -/

/-- Go `formatSentence` on well-formed text.  The index expression `s[len(s)-1]`
panics when the trimmed string is empty. -/
def formatSentence (s : Str) : Except Panic Str :=
  let s := Replace s arrow 1
  let s := TrimSpace s
  match s.getLast? with
  | none => .error .indexOutOfRange
  | some last =>
    if last = ':' then .ok (Replace s ':' (-1))
    else if last = '.' then .ok (Replace s '.' (-1))
    else .ok s

/-! ## Strings as bytes -/

/-- A Go string as it is stored: a sequence of bytes, each below 256. -/
abbrev Bytes := List Nat

/-- UTF-8 encoding of one code point. -/
def utf8Char (c : Char) : Bytes :=
  let n := c.toNat
  if n < 0x80 then [n]
  else if n < 0x800 then [0xC0 + n / 64, 0x80 + n % 64]
  else if n < 0x10000 then [0xE0 + n / 4096, 0x80 + n / 64 % 64, 0x80 + n % 64]
  else [0xF0 + n / 262144, 0x80 + n / 4096 % 64, 0x80 + n / 64 % 64, 0x80 + n % 64]

/-- UTF-8 encoding of a sequence of code points: the well-formed Go strings. -/
def utf8 (s : Str) : Bytes := (s.map utf8Char).flatten

/-- The bytes of the string literal `"→"`. -/
def arrowBytes : Bytes := [0xE2, 0x86, 0x92]

/-- The code points for which `unicode.IsSpace` holds. -/
def spaceRunes : List Char :=
  [0x09, 0x0A, 0x0B, 0x0C, 0x0D, 0x20, 0x85, 0xA0, 0x1680, 0x2000, 0x2001, 0x2002, 0x2003,
    0x2004, 0x2005, 0x2006, 0x2007, 0x2008, 0x2009, 0x200A, 0x2028, 0x2029, 0x202F, 0x205F,
    0x3000].map Char.ofNat

/-- Length of the first of the byte strings `encs` that `s` starts with, `0` when
it starts with none of them. -/
def matchWidth (encs : List Bytes) (s : Bytes) : Nat :=
  match encs.find? (fun enc => enc.isPrefixOf s) with
  | some enc => enc.length
  | none => 0

/-- Strips from the front of `s` every leading byte string of `encs`; `skip` bytes
of an occurrence already recognised remain to be dropped. -/
def trimFront (encs : List Bytes) : Nat → Bytes → Bytes
  | _, [] => []
  | skip + 1, _ :: bs => trimFront encs skip bs
  | 0, b :: bs =>
    if matchWidth encs (b :: bs) = 0 then b :: bs
    else trimFront encs (matchWidth encs (b :: bs) - 1) bs

/-- Go `strings.TrimLeftFunc(s, unicode.IsSpace)` on bytes: the rune decoded at
the front of `s` is a white space character exactly when `s` starts with the
UTF-8 encoding of one; any other byte, well-formed or not, stops the trimming. -/
def TrimLeftBytes (s : Bytes) : Bytes := trimFront (spaceRunes.map utf8Char) 0 s

/-- Go `strings.TrimRightFunc(s, unicode.IsSpace)` on bytes: the rune decoded at
the end of `s` is a white space character exactly when `s` ends with the UTF-8
encoding of one. -/
def TrimRightBytes (s : Bytes) : Bytes :=
  (trimFront (spaceRunes.map (fun w => (utf8Char w).reverse)) 0 s.reverse).reverse

/-- Go `strings.TrimSpace` on bytes. -/
def TrimSpaceBytes (s : Bytes) : Bytes := TrimRightBytes (TrimLeftBytes s)

/-- Deletes the first `n` non-overlapping occurrences of the non-empty byte
string `old`, scanning from the left; `skip` bytes of an occurrence already
found remain to be dropped. -/
def removeOcc (old : Bytes) : Nat → Nat → Bytes → Bytes
  | _, _, [] => []
  | n, skip + 1, _ :: bs => removeOcc old n skip bs
  | 0, 0, b :: bs => b :: bs
  | n + 1, 0, b :: bs =>
    if old.isPrefixOf (b :: bs) then removeOcc old n (old.length - 1) bs
    else b :: removeOcc old (n + 1) 0 bs

/-- Go `strings.Replace(s, old, "", n)` on bytes, for a non-empty `old`: the first
`n` occurrences of `old` are deleted, all of them when `n < 0` (there are at most
`len(s)` occurrences). -/
def ReplaceBytes (s old : Bytes) (n : Int) : Bytes :=
  if n < 0 then removeOcc old s.length 0 s else removeOcc old n.toNat 0 s

/-- Go `formatSentence` on the bytes of its argument. -/
def formatSentenceBytes (s : Bytes) : Except Panic Bytes :=
  let s := ReplaceBytes s arrowBytes 1
  let s := TrimSpaceBytes s
  match s.getLast? with
  | none => .error .indexOutOfRange
  | some last =>
    if last = 0x3A then .ok (ReplaceBytes s [0x3A] (-1))
    else if last = 0x2E then .ok (ReplaceBytes s [0x2E] (-1))
    else .ok s

/-- Go `strings.Count(s, old)` for a non-empty `old`, as a scan from the left:
the number of non-overlapping occurrences; `skip` bytes of an occurrence already
counted remain to be passed. -/
def countOcc (old : Bytes) : Nat → Bytes → Nat
  | _, [] => 0
  | skip + 1, _ :: bs => countOcc old skip bs
  | 0, b :: bs =>
    if old.isPrefixOf (b :: bs) then countOcc old (old.length - 1) bs + 1
    else countOcc old 0 bs

/-- Go `strings.Count(s, old)` on bytes. -/
def Count (s old : Bytes) : Nat := countOcc old 0 s

/-! ## The link handlers of `setupCollectors` -/

/-- Go constant `DOMAIN_URL`. -/
def DOMAIN_URL : Str := "https://dictionary.cambridge.org".toList

/-- Go `strings.Index(s, substr)`: the position of the first occurrence of
`substr` in `s`, or `-1` when there is none.  Positions are counted here in code
points, where Go counts bytes; the program only tests the sign. -/
def Index (s substr : Str) : Int :=
  match s with
  | [] => if substr = [] then 0 else -1
  | c :: cs =>
    if substr.isPrefixOf (c :: cs) then 0
    else
      let i := Index cs substr
      if i < 0 then -1 else i + 1

/-- Go `strings.Contains(s, substr)`, which is `Index(s, substr) >= 0`. -/
def Contains (s substr : Str) : Bool := decide (Index s substr ≥ 0)

/-- A call `collectors[collector].Visit(url)`. -/
structure Visit where
  collector : Nat
  url : Str
  deriving DecidableEq, Repr

/-- The link callbacks that `setupCollectors` registers on collectors 1, 2 and 3:
the `Visit` calls made by the callback of collector `i` on a matching element
whose `href` attribute reads `href` (`Attr` yields `""` for a missing attribute).
Collector 0 carries the entry callback, modelled by `parseEntry`. -/
def setupCollectors (i : Nat) (href : Str) : List Visit :=
  match i with
  | 1 => [⟨2, DOMAIN_URL ++ href⟩]
  | 2 => [⟨3, href⟩]
  | 3 =>
    if href ≠ [] ∧ ¬ Contains href "https://".toList = true then
      [⟨0, DOMAIN_URL ++ href⟩]
    else []
  | _ => []

/-! ## Entry pages, the store and `parseEntry` -/

/-- A `div.ddef_block` element as the program reads it: the text of its `div.def`
descendants and the text of each `div.dexamp` descendant in document order. -/
structure DefBlock where
  defText : Str
  exampTexts : List Str
  deriving DecidableEq, Repr

/-- An `.entry-body__el` element as the program reads it: the four header texts
found by `collectHeaderData` and the `div.sense-body > div.ddef_block` elements
in document order. -/
structure EntryElement where
  title : Str
  pos : Str
  pron_uk : Str
  pron_us : Str
  blocks : List DefBlock
  deriving DecidableEq, Repr

/-- The three `INSERT` statements sent to the store. -/
inductive Insert where
  | word (title pos pron_uk pron_us : Str)
  | definition (word_id : Nat) (text : Str)
  | examp (def_id : Nat) (text : Str)
  deriving DecidableEq, Repr

/-- The store behind `conn`: one `QueryRow(...).Scan(...)` call maps the store
state and the statement to the scanned id (`none` when `Scan` reports an error)
and the next store state. -/
abbrev Conn (σ : Type) := σ → Insert → Option Nat × σ

/-- A statement issued by the program.  For the word and definition inserts the
result of `Scan` is recorded; `insertExample` discards it. -/
inductive Event where
  | word (title pos pron_uk pron_us : Str) (id : Option Nat)
  | definition (word_id : Nat) (text : Str) (id : Option Nat)
  | examp (def_id : Nat) (text : Str)
  deriving DecidableEq, Repr

/-- Ways in which a callback stops before returning. -/
inductive Abort where
  | exit (code : Nat)
  | panic (p : Panic)
  deriving DecidableEq, Repr

/-- Program state: the store, the statements issued so far (oldest first) and the
global `count`. -/
structure World (σ : Type) where
  db : σ
  log : List Event
  count : Nat

/-- Go `collectHeaderData`. -/
def collectHeaderData (e : EntryElement) : Str × Str × Str × Str :=
  (e.title, e.pos, e.pron_uk, e.pron_us)

/-- Go `insertHeaderData`: on a `Scan` error the process exits with code 1. -/
def insertHeaderData {σ : Type} (conn : Conn σ) (w : World σ)
    (title pos pron_uk pron_us : Str) : World σ × Except Abort Nat :=
  let r := conn w.db (.word title pos pron_uk pron_us)
  let w1 : World σ :=
    { w with db := r.2, log := w.log ++ [.word title pos pron_uk pron_us r.1] }
  match r.1 with
  | none => (w1, .error (.exit 1))
  | some id => (w1, .ok id)

/-- Go `collectDefinition`. -/
def collectDefinition (s : DefBlock) : Except Panic Str :=
  formatSentence s.defText

/-- Go `insertDefinition`: on a `Scan` error the process exits with code 1. -/
def insertDefinition {σ : Type} (conn : Conn σ) (w : World σ) (word_id : Nat)
    (text : Str) : World σ × Except Abort Nat :=
  let r := conn w.db (.definition word_id text)
  let w1 : World σ :=
    { w with db := r.2, log := w.log ++ [.definition word_id text r.1] }
  match r.1 with
  | none => (w1, .error (.exit 1))
  | some def_id => (w1, .ok def_id)

/-- Go `collectExample`. -/
def collectExample (text : Str) : Except Panic Str :=
  formatSentence text

/-- Go `insertExample`: the result of `Scan` is not inspected. -/
def insertExample {σ : Type} (conn : Conn σ) (w : World σ) (def_id : Nat)
    (text : Str) : World σ :=
  let r := conn w.db (.examp def_id text)
  { w with db := r.2, log := w.log ++ [.examp def_id text] }

/-- The inner loop of `parseDefinitionBody`, `s.ForEach("div.dexamp", ...)`. -/
def forEachExample {σ : Type} (conn : Conn σ) (def_id : Nat) :
    World σ → List Str → World σ × Except Abort Unit
  | w, [] => (w, .ok ())
  | w, ds :: rest =>
    match collectExample ds with
    | .error p => (w, .error (.panic p))
    | .ok examp => forEachExample conn def_id (insertExample conn w def_id examp) rest

/-- Go `parseDefinitionBody`, the loop over the definition blocks. -/
def parseDefinitionBody {σ : Type} (conn : Conn σ) (word_id : Nat) :
    World σ → List DefBlock → World σ × Except Abort Unit
  | w, [] => (w, .ok ())
  | w, s :: rest =>
    match collectDefinition s with
    | .error p => (w, .error (.panic p))
    | .ok text =>
      match insertDefinition conn w word_id text with
      | (w1, .error a) => (w1, .error a)
      | (w1, .ok def_id) =>
        match forEachExample conn def_id w1 s.exampTexts with
        | (w2, .error a) => (w2, .error a)
        | (w2, .ok ()) => parseDefinitionBody conn word_id w2 rest

/-- Go `parseEntry`.  The `print...` calls only write to standard output and are
left out, here and in `parseDefinitionBody`. -/
def parseEntry {σ : Type} (conn : Conn σ) (w : World σ) (e : EntryElement) :
    World σ × Except Abort Unit :=
  let h := collectHeaderData e
  let w0 : World σ := { w with count := w.count + 1 }
  match insertHeaderData conn w0 h.1 h.2.1 h.2.2.1 h.2.2.2 with
  | (w1, .error a) => (w1, .error a)
  | (w1, .ok word_id) => parseDefinitionBody conn word_id w1 e.blocks

/-! ## Vocabulary used to state the properties -/

/-- A definition after normalisation: its gloss and its examples. -/
structure Definition where
  gloss : Str
  examples : List Str
  deriving DecidableEq, Repr

/-- The blocks of an entry normalise, without panic, to the definitions `defs`. -/
def Normalises (blocks : List DefBlock) (defs : List Definition) : Prop :=
  List.Forall₂
    (fun b d => collectDefinition b = .ok d.gloss ∧
      List.Forall₂ (fun x e => collectExample x = .ok e) b.exampTexts d.examples)
    blocks defs

/-- The statements expected for definitions paired with the ids the store gave
them: per definition its insert, then one example insert per example. -/
def expectedInserts (word_id : Nat) : List (Definition × Nat) → List Event
  | [] => []
  | (d, def_id) :: rest =>
    .definition word_id d.gloss (some def_id) ::
      (d.examples.map (fun x => Event.examp def_id x) ++ expectedInserts word_id rest)

/-- The statement that an event records. -/
def Event.request : Event → Insert
  | .word t p u v _ => .word t p u v
  | .definition word_id text _ => .definition word_id text
  | .examp def_id text => .examp def_id text

/-- The event recorded for the statement `q` when the store answers `r`. -/
def Event.ofAnswer (q : Insert) (r : Option Nat) : Event :=
  match q with
  | .word t p u v => .word t p u v r
  | .definition word_id text => .definition word_id text r
  | .examp def_id text => .examp def_id text

/-- The store on its own: the statements `qs` are sent to it one after the other,
starting in state `db`; the result is its final state and, per statement, the
event with the answer it gave. -/
def sendAll {σ : Type} (conn : Conn σ) : σ → List Insert → σ × List Event
  | db, [] => (db, [])
  | db, q :: qs =>
    ((sendAll conn (conn db q).2 qs).1,
      Event.ofAnswer q (conn db q).1 :: (sendAll conn (conn db q).2 qs).2)

/-- A word or definition insert whose `Scan` reported an error. -/
def Event.failed : Event → Bool
  | .word _ _ _ _ none => true
  | .definition _ _ none => true
  | _ => false

/-- The statement is an example insert. -/
def Insert.isExamp : Insert → Bool
  | .examp _ _ => true
  | _ => false

/-- Shape of the statements `new` issued by a run with result `r`: either no
word or definition insert failed and the run did not exit, or the run exited
with code 1 and the only failed insert is the last statement issued. -/
def StopsAtFailure (new : List Event) (r : Except Abort Unit) : Prop :=
  ((∀ ev ∈ new, ev.failed = false) ∧ ∀ c, r ≠ .error (.exit c)) ∨
  (r = .error (.exit 1) ∧ ∃ good bad, new = good ++ [bad] ∧
    (∀ ev ∈ good, ev.failed = false) ∧ bad.failed = true)

/-- A store that numbers its rows consecutively and never fails. -/
def counterConn : Conn Nat := fun n _ => (some (n + 1), n + 1)

/-- A store that numbers its rows consecutively and fails every example insert;
its state is the number of rows and the number of statements received. -/
def noExampConn : Conn (Nat × Nat) := fun n q =>
  match q with
  | .examp _ _ => (none, (n.1, n.2 + 1))
  | _ => (some (n.1 + 1), (n.1 + 1, n.2 + 1))

/-- A store that numbers its rows consecutively and fails every statement once it
holds `k` rows. -/
def failAfter (k : Nat) : Conn Nat := fun n _ =>
  if n < k then (some (n + 1), n + 1) else (none, n)

/-- An entry page with one definition that has one example. -/
def sampleEntry : EntryElement :=
  { title := "cat".toList, pos := "noun".toList, pron_uk := "kæt".toList,
    pron_us := "kæt".toList,
    blocks := [⟨"a small animal: ".toList, ["The cat sat.".toList]⟩] }

/-! ## Facts about the library functions -/

theorem removeUpTo_one (old : Char) (s : Str) : removeUpTo old 1 s = s.erase old := by
  induction s with
  | nil => rfl
  | cons c cs ih =>
    by_cases h : c = old
    · subst h; simp [removeUpTo]
    · have h2 : (c == old) = false := by simpa using h
      simp [removeUpTo, h, List.erase_cons, h2, ih]

theorem removeUpTo_all (old : Char) (s : Str) :
    ∀ n, s.length ≤ n → removeUpTo old n s = s.filter (fun c => decide (c ≠ old)) := by
  induction s with
  | nil => intro n _; cases n <;> rfl
  | cons c cs ih =>
    intro n hn
    cases n with
    | zero => simp at hn
    | succ n =>
      have hn2 : cs.length ≤ n := by simpa using hn
      by_cases h : c = old
      · subst h; simp [removeUpTo, ih n hn2]
      · simp [removeUpTo, h, ih (n + 1) (by omega)]

theorem Replace_first (s : Str) (old : Char) : Replace s old 1 = s.erase old := by
  simp [Replace, removeUpTo_one]

theorem Replace_all (s : Str) (old : Char) :
    Replace s old (-1) = s.filter (fun c => decide (c ≠ old)) := by
  simp [Replace, removeUpTo_all old s s.length (le_refl _)]

theorem TrimRight_eq_rdropWhile (s : Str) : TrimRight s = s.rdropWhile isSpace := rfl

theorem TrimLeft_sublist (s : Str) : (TrimLeft s).Sublist s :=
  (List.dropWhile_suffix isSpace).sublist

theorem TrimRight_sublist (s : Str) : (TrimRight s).Sublist s :=
  (List.rdropWhile_prefix isSpace s).sublist

theorem TrimSpace_sublist (s : Str) : (TrimSpace s).Sublist s :=
  (TrimRight_sublist _).trans (TrimLeft_sublist s)

theorem TrimSpace_getLast (s : Str) (c : Char) (h : (TrimSpace s).getLast? = some c) :
    isSpace c = false := by
  have hne : TrimSpace s ≠ [] := by
    intro h0; rw [h0] at h; simp at h
  have h1 := List.rdropWhile_last_not isSpace (TrimLeft s) hne
  rw [List.getLast?_eq_getLast _ hne] at h
  have h2 : (TrimSpace s).getLast hne = c := by simpa using h
  rw [← h2]
  simpa using h1

theorem TrimSpace_head (s : Str) (c : Char) (h : (TrimSpace s).head? = some c) :
    isSpace c = false := by
  have hpre : TrimSpace s <+: TrimLeft s := List.rdropWhile_prefix isSpace (TrimLeft s)
  obtain ⟨t, ht⟩ := hpre
  have h3 : (TrimLeft s).head? = some c := by
    rw [← ht]
    cases hts : TrimSpace s with
    | nil => rw [hts] at h; simp at h
    | cons a as => rw [hts] at h; simpa using h
  have h4 := List.head?_dropWhile_not isSpace s
  unfold TrimLeft at h3
  rw [h3] at h4
  simpa using h4

theorem TrimSpace_eq_self (s : Str)
    (hhead : ∀ c, s.head? = some c → isSpace c = false)
    (hlast : ∀ c, s.getLast? = some c → isSpace c = false) : TrimSpace s = s := by
  have h1 : TrimLeft s = s := by
    cases s with
    | nil => rfl
    | cons a as =>
      have := hhead a rfl
      simp [TrimLeft, List.dropWhile_cons, this]
  unfold TrimSpace
  rw [h1, TrimRight_eq_rdropWhile, List.rdropWhile_eq_self_iff]
  intro hl
  have := hlast (s.getLast hl) (List.getLast?_eq_getLast _ hl)
  simp [this]

theorem count_dropWhile_of_not (p : Char → Bool) (a : Char) (hp : p a = false) (l : Str) :
    (l.dropWhile p).count a = l.count a := by
  induction l with
  | nil => rfl
  | cons c cs ih =>
    by_cases hc : p c = true
    · have hne : c ≠ a := by
        intro h; rw [h, hp] at hc; exact Bool.noConfusion hc
      have hne2 : (c == a) = false := by simpa using hne
      rw [List.dropWhile_cons_of_pos hc, ih, List.count_cons, hne2]
      simp
    · rw [List.dropWhile_cons_of_neg hc]

theorem arrow_not_space : isSpace arrow = false := by decide

theorem count_arrow_TrimSpace (s : Str) : (TrimSpace s).count arrow = s.count arrow := by
  unfold TrimSpace TrimRight TrimLeft
  rw [List.count_reverse, count_dropWhile_of_not _ _ arrow_not_space, List.count_reverse,
    count_dropWhile_of_not _ _ arrow_not_space]

/-- The three ways `formatSentence` can return, in terms of the trimmed string. -/
theorem formatSentence_cases (s : Str) :
    (TrimSpace (s.erase arrow) = [] ∧ formatSentence s = .error .indexOutOfRange) ∨
    ((TrimSpace (s.erase arrow)).getLast? = some ':' ∧
      formatSentence s =
        .ok ((TrimSpace (s.erase arrow)).filter (fun c => decide (c ≠ ':')))) ∨
    ((TrimSpace (s.erase arrow)).getLast? = some '.' ∧
      formatSentence s =
        .ok ((TrimSpace (s.erase arrow)).filter (fun c => decide (c ≠ '.')))) ∨
    (TrimSpace (s.erase arrow) ≠ [] ∧ (TrimSpace (s.erase arrow)).getLast? ≠ some ':' ∧
      (TrimSpace (s.erase arrow)).getLast? ≠ some '.' ∧
      formatSentence s = .ok (TrimSpace (s.erase arrow))) := by
  unfold formatSentence
  simp only [Replace_first, Replace_all]
  cases h : (TrimSpace (s.erase arrow)).getLast? with
  | none =>
    left
    exact ⟨List.getLast?_eq_none_iff.mp h, rfl⟩
  | some last =>
    have hne : TrimSpace (s.erase arrow) ≠ [] := by
      intro h0; rw [h0] at h; simp at h
    by_cases h1 : last = ':'
    · right; left; subst h1; exact ⟨rfl, by simp⟩
    · by_cases h2 : last = '.'
      · right; right; left; subst h2; exact ⟨rfl, by simp⟩
      · right; right; right
        refine ⟨hne, ?_, ?_, by simp [h1, h2]⟩
        · intro h3; exact h1 (Option.some.inj h3)
        · intro h3; exact h2 (Option.some.inj h3)

theorem formatSentence_ok_sublist (s r : Str) (h : formatSentence s = .ok r) :
    r.Sublist (TrimSpace (s.erase arrow)) := by
  rcases formatSentence_cases s with hc | hc | hc | hc
  · rw [hc.2] at h; cases h
  · rw [hc.2] at h; cases h; exact List.filter_sublist _
  · rw [hc.2] at h; cases h; exact List.filter_sublist _
  · rw [hc.2.2.2] at h; cases h; exact List.Sublist.refl _

theorem formatSentence_ok_count (s r : Str) (h : formatSentence s = .ok r) :
    r.count arrow = (s.erase arrow).count arrow := by
  have hf : ∀ (p : Char → Bool) (t : Str), p arrow = true →
      (t.filter p).count arrow = t.count arrow :=
    fun _ _ hp => List.count_filter hp
  rw [← count_arrow_TrimSpace (s.erase arrow)]
  rcases formatSentence_cases s with hc | hc | hc | hc
  · rw [hc.2] at h; cases h
  · rw [hc.2] at h; cases h; exact hf _ _ (by decide)
  · rw [hc.2] at h; cases h; exact hf _ _ (by decide)
  · rw [hc.2.2.2] at h; cases h; rfl

/-- The fixed points of `formatSentence`. -/
theorem formatSentence_fixed_iff (r : Str) :
    formatSentence r = .ok r ↔
      (r ≠ [] ∧ arrow ∉ r ∧ (∀ c, r.head? = some c → isSpace c = false) ∧
        (∀ c, r.getLast? = some c → isSpace c = false ∧ c ≠ ':' ∧ c ≠ '.')) := by
  constructor
  · intro h2
    have hsub := formatSentence_ok_sublist r r h2
    have he : r.erase arrow = r :=
      List.Sublist.antisymm (List.erase_sublist arrow r)
        (hsub.trans (TrimSpace_sublist _))
    have harrow : arrow ∉ r := by
      intro hm
      have hl := List.length_erase_of_mem hm
      rw [he] at hl
      have hpos : 0 < r.length := List.length_pos_of_mem hm
      omega
    rw [he] at hsub
    have ht : TrimSpace r = r := List.Sublist.antisymm (TrimSpace_sublist r) hsub
    have hkeep : ∀ (x : Char), r.getLast? = some x →
        r.filter (fun c => decide (c ≠ x)) ≠ r := by
      intro x hx hf
      have := List.filter_eq_self.mp hf x (List.mem_of_getLast?_eq_some hx)
      simp at this
    rcases formatSentence_cases r with hc | hc | hc | hc
    · rw [hc.2] at h2; cases h2
    · rw [he, ht] at hc
      rw [hc.2] at h2
      exact absurd (Except.ok.inj h2) (hkeep _ hc.1)
    · rw [he, ht] at hc
      rw [hc.2] at h2
      exact absurd (Except.ok.inj h2) (hkeep _ hc.1)
    · rw [he, ht] at hc
      refine ⟨hc.1, harrow, ?_, ?_⟩
      · intro c hcx; rw [← ht] at hcx; exact TrimSpace_head _ _ hcx
      · intro c hcx
        refine ⟨?_, ?_, ?_⟩
        · rw [← ht] at hcx; exact TrimSpace_getLast _ _ hcx
        · intro hcc; subst hcc; exact hc.2.1 hcx
        · intro hcc; subst hcc; exact hc.2.2.1 hcx
  · rintro ⟨hne, harrow, hhead, hlast⟩
    have he : r.erase arrow = r := List.erase_of_not_mem harrow
    have ht : TrimSpace r = r := TrimSpace_eq_self r hhead (fun c hcx => (hlast c hcx).1)
    rcases formatSentence_cases r with hc | hc | hc | hc
    · rw [he, ht] at hc; exact absurd hc.1 hne
    · rw [he, ht] at hc; exact absurd rfl (hlast _ hc.1).2.1
    · rw [he, ht] at hc; exact absurd rfl (hlast _ hc.1).2.2
    · rw [he, ht] at hc; exact hc.2.2.2

theorem Index_nonneg_iff (s substr : Str) : 0 ≤ Index s substr ↔ substr <:+: s := by
  induction s with
  | nil =>
    unfold Index
    by_cases h : substr = []
    · simp [h]
    · simp [h, List.infix_nil]
  | cons c cs ih =>
    unfold Index
    rw [List.infix_cons_iff]
    by_cases hp : substr.isPrefixOf (c :: cs) = true
    · simp only [hp, if_true]
      exact ⟨fun _ => Or.inl (List.isPrefixOf_iff_prefix.mp hp), fun _ => le_refl _⟩
    · have hnp : ¬ substr <+: c :: cs := fun h => hp (List.isPrefixOf_iff_prefix.mpr h)
      simp only [hp]
      by_cases hi : Index cs substr < 0
      · have hni : ¬ substr <:+: cs := fun h => absurd (ih.mpr h) (by omega)
        simp [hi, hnp, hni]
      · have hin : substr <:+: cs := ih.mp (by omega)
        simp only [hi, if_false, Bool.false_eq_true]
        exact ⟨fun _ => Or.inr hin, fun _ => by omega⟩

theorem Contains_iff_isInfix (s substr : Str) : Contains s substr = true ↔ substr <:+: s := by
  unfold Contains
  rw [decide_eq_true_iff]
  exact Index_nonneg_iff s substr

/-! ## Facts about the insert sequence -/

theorem insertHeaderData_some {σ : Type} (conn : Conn σ) (w : World σ)
    (t p u v : Str) (id : Nat) (h : (conn w.db (.word t p u v)).1 = some id) :
    insertHeaderData conn w t p u v =
      ({ w with db := (conn w.db (.word t p u v)).2,
                log := w.log ++ [.word t p u v (some id)] }, .ok id) := by
  simp [insertHeaderData, h]

theorem insertHeaderData_none {σ : Type} (conn : Conn σ) (w : World σ)
    (t p u v : Str) (h : (conn w.db (.word t p u v)).1 = none) :
    insertHeaderData conn w t p u v =
      ({ w with db := (conn w.db (.word t p u v)).2,
                log := w.log ++ [.word t p u v none] }, .error (.exit 1)) := by
  simp [insertHeaderData, h]

theorem insertDefinition_some {σ : Type} (conn : Conn σ) (w : World σ)
    (word_id : Nat) (text : Str) (id : Nat)
    (h : (conn w.db (.definition word_id text)).1 = some id) :
    insertDefinition conn w word_id text =
      ({ w with db := (conn w.db (.definition word_id text)).2,
                log := w.log ++ [.definition word_id text (some id)] }, .ok id) := by
  simp [insertDefinition, h]

theorem insertDefinition_none {σ : Type} (conn : Conn σ) (w : World σ)
    (word_id : Nat) (text : Str)
    (h : (conn w.db (.definition word_id text)).1 = none) :
    insertDefinition conn w word_id text =
      ({ w with db := (conn w.db (.definition word_id text)).2,
                log := w.log ++ [.definition word_id text none] }, .error (.exit 1)) := by
  simp [insertDefinition, h]

/-- When every example text normalises, the inner loop issues one example insert
per example, in order, and returns normally whatever the store answers. -/
theorem forEachExample_ok {σ : Type} (conn : Conn σ) (def_id : Nat) (xs es : List Str)
    (h : List.Forall₂ (fun x e => collectExample x = .ok e) xs es) :
    ∀ w : World σ, ∃ w2 : World σ, forEachExample conn def_id w xs = (w2, .ok ()) ∧
      w2.log = w.log ++ es.map (fun x => Event.examp def_id x) ∧ w2.count = w.count := by
  induction h with
  | nil => intro w; exact ⟨w, rfl, by simp, rfl⟩
  | cons hx _ ih =>
    intro w
    obtain ⟨w2, h1, h2, h3⟩ := ih (insertExample conn w def_id _)
    refine ⟨w2, ?_, ?_, ?_⟩
    · simp only [forEachExample, hx]
      exact h1
    · rw [h2]; simp [insertExample]
    · rw [h3]; rfl

/-- When the word and definition inserts succeed and every text normalises, the
loop over the blocks issues the expected statements and returns normally. -/
theorem parseDefinitionBody_ok {σ : Type} (conn : Conn σ) (word_id : Nat)
    (hsucc : ∀ (db : σ) (q : Insert), q.isExamp = false → (conn db q).1 ≠ none)
    (blocks : List DefBlock) (defs : List Definition) (h : Normalises blocks defs) :
    ∀ w : World σ, ∃ (w2 : World σ) (ids : List Nat),
      parseDefinitionBody conn word_id w blocks = (w2, .ok ()) ∧
      ids.length = defs.length ∧
      w2.log = w.log ++ expectedInserts word_id (defs.zip ids) ∧ w2.count = w.count := by
  unfold Normalises at h
  induction h with
  | nil => intro w; exact ⟨w, [], rfl, rfl, by simp [expectedInserts], rfl⟩
  | @cons b d bs ds hb _ ih =>
    intro w
    obtain ⟨id, hid⟩ := Option.ne_none_iff_exists'.mp
      (hsucc w.db (.definition word_id d.gloss) rfl)
    obtain ⟨w1, he1, he2, he3⟩ := forEachExample_ok conn id _ _ hb.2
      { w with db := (conn w.db (.definition word_id d.gloss)).2,
               log := w.log ++ [.definition word_id d.gloss (some id)] }
    obtain ⟨w2, ids, hr1, hr2, hr3, hr4⟩ := ih w1
    refine ⟨w2, id :: ids, ?_, by simp [hr2], ?_, ?_⟩
    · simp only [parseDefinitionBody, hb.1, insertDefinition_some conn w word_id d.gloss id hid,
        he1]
      exact hr1
    · rw [hr3, he2]
      simp [expectedInserts, List.zip]
    · rw [hr4, he3]

theorem StopsAtFailure.prepend {pre new : List Event} {r : Except Abort Unit}
    (hpre : ∀ ev ∈ pre, ev.failed = false) (h : StopsAtFailure new r) :
    StopsAtFailure (pre ++ new) r := by
  rcases h with ⟨hc, hr⟩ | ⟨hr, good, bad, hn, hg, hb⟩
  · left
    refine ⟨?_, hr⟩
    intro ev hev
    rcases List.mem_append.mp hev with h1 | h1
    · exact hpre ev h1
    · exact hc ev h1
  · right
    refine ⟨hr, pre ++ good, bad, by rw [hn, List.append_assoc], ?_, hb⟩
    intro ev hev
    rcases List.mem_append.mp hev with h1 | h1
    · exact hpre ev h1
    · exact hg ev h1

/-- The inner loop issues example inserts only and never exits. -/
theorem forEachExample_trace {σ : Type} (conn : Conn σ) (def_id : Nat) (xs : List Str) :
    ∀ w : World σ, ∃ new : List Event,
      (forEachExample conn def_id w xs).1.log = w.log ++ new ∧
      (∀ ev ∈ new, ev.failed = false) ∧
      ∀ c, (forEachExample conn def_id w xs).2 ≠ .error (.exit c) := by
  induction xs with
  | nil =>
    intro w
    exact ⟨[], by simp [forEachExample], by simp, by simp [forEachExample]⟩
  | cons x rest ih =>
    intro w
    cases hx : collectExample x with
    | error p =>
      refine ⟨[], ?_, by simp, ?_⟩
      · simp [forEachExample, hx]
      · simp [forEachExample, hx]
    | ok examp =>
      obtain ⟨new, h1, h2, h3⟩ := ih (insertExample conn w def_id examp)
      refine ⟨Event.examp def_id examp :: new, ?_, ?_, ?_⟩
      · simp only [forEachExample, hx]
        rw [h1]
        simp [insertExample]
      · intro ev hev
        rcases List.mem_cons.mp hev with h0 | h0
        · rw [h0]; rfl
        · exact h2 ev h0
      · simp only [forEachExample, hx]
        exact h3

/-- The loop over the blocks stops at the first failed definition insert. -/
theorem parseDefinitionBody_trace {σ : Type} (conn : Conn σ) (word_id : Nat)
    (blocks : List DefBlock) :
    ∀ w : World σ, ∃ new : List Event,
      (parseDefinitionBody conn word_id w blocks).1.log = w.log ++ new ∧
      StopsAtFailure new (parseDefinitionBody conn word_id w blocks).2 := by
  induction blocks with
  | nil =>
    intro w
    exact ⟨[], by simp [parseDefinitionBody], Or.inl ⟨by simp, by simp [parseDefinitionBody]⟩⟩
  | cons b rest ih =>
    intro w
    cases hb : collectDefinition b with
    | error p =>
      refine ⟨[], ?_, Or.inl ⟨by simp, ?_⟩⟩
      · simp [parseDefinitionBody, hb]
      · simp [parseDefinitionBody, hb]
    | ok text =>
      cases hq : (conn w.db (.definition word_id text)).1 with
      | none =>
        refine ⟨[.definition word_id text none], ?_, Or.inr ⟨?_, [], _, rfl, by simp, rfl⟩⟩
        · simp [parseDefinitionBody, hb, insertDefinition_none conn w word_id text hq]
        · simp [parseDefinitionBody, hb, insertDefinition_none conn w word_id text hq]
      | some id =>
        have hdef := insertDefinition_some conn w word_id text id hq
        obtain ⟨new1, h1, h2, h3⟩ := forEachExample_trace conn id b.exampTexts
          { w with db := (conn w.db (.definition word_id text)).2,
                   log := w.log ++ [.definition word_id text (some id)] }
        rcases hfe : forEachExample conn id
          { w with db := (conn w.db (.definition word_id text)).2,
                   log := w.log ++ [.definition word_id text (some id)] }
          b.exampTexts with ⟨w2, r1⟩
        rw [hfe] at h1 h3
        have hpre : ∀ ev ∈ Event.definition word_id text (some id) :: new1,
            ev.failed = false := by
          intro ev hev
          rcases List.mem_cons.mp hev with h0 | h0
          · rw [h0]; rfl
          · exact h2 ev h0
        cases r1 with
        | error a =>
          refine ⟨Event.definition word_id text (some id) :: new1, ?_, Or.inl ⟨hpre, ?_⟩⟩
          · simp only [parseDefinitionBody, hb, hdef, hfe]
            simpa using h1
          · simp only [parseDefinitionBody, hb, hdef, hfe]
            exact h3
        | ok u =>
          obtain ⟨new2, h4, h5⟩ := ih w2
          refine ⟨(Event.definition word_id text (some id) :: new1) ++ new2, ?_, ?_⟩
          · simp only [parseDefinitionBody, hb, hdef, hfe]
            rw [h4]
            simp only at h1
            rw [h1]
            simp
          · simp only [parseDefinitionBody, hb, hdef, hfe]
            exact StopsAtFailure.prepend hpre h5

/-- Processing one entry stops at the first failed word or definition insert. -/
theorem parseEntry_trace {σ : Type} (conn : Conn σ) (w : World σ) (e : EntryElement) :
    ∃ new : List Event, (parseEntry conn w e).1.log = w.log ++ new ∧
      StopsAtFailure new (parseEntry conn w e).2 := by
  cases hq : (conn w.db (.word e.title e.pos e.pron_uk e.pron_us)).1 with
  | none =>
    have hh := insertHeaderData_none conn { w with count := w.count + 1 }
      e.title e.pos e.pron_uk e.pron_us hq
    refine ⟨[.word e.title e.pos e.pron_uk e.pron_us none], ?_,
      Or.inr ⟨?_, [], _, rfl, by simp, rfl⟩⟩
    · simp only [parseEntry, collectHeaderData, hh]
    · simp only [parseEntry, collectHeaderData, hh]
  | some id =>
    have hh := insertHeaderData_some conn { w with count := w.count + 1 }
      e.title e.pos e.pron_uk e.pron_us id hq
    obtain ⟨new, h1, h2⟩ := parseDefinitionBody_trace conn id e.blocks
      { db := (conn w.db (.word e.title e.pos e.pron_uk e.pron_us)).2,
        log := w.log ++ [.word e.title e.pos e.pron_uk e.pron_us (some id)],
        count := w.count + 1 }
    have hpre : ∀ ev ∈ [Event.word e.title e.pos e.pron_uk e.pron_us (some id)],
        ev.failed = false := by
      intro ev hev
      rw [List.mem_singleton.mp hev]; rfl
    refine ⟨[Event.word e.title e.pos e.pron_uk e.pron_us (some id)] ++ new, ?_, ?_⟩
    · simp only [parseEntry, collectHeaderData, hh]
      rw [h1]
      simp
    · simp only [parseEntry, collectHeaderData, hh]
      exact StopsAtFailure.prepend hpre h2

/-! ## The log against the store -/

theorem sendAll_append {σ : Type} (conn : Conn σ) (qs1 qs2 : List Insert) :
    ∀ db : σ, sendAll conn db (qs1 ++ qs2) =
      ((sendAll conn (sendAll conn db qs1).1 qs2).1,
        (sendAll conn db qs1).2 ++ (sendAll conn (sendAll conn db qs1).1 qs2).2) := by
  induction qs1 with
  | nil => intro db; rfl
  | cons q qs ih =>
    intro db
    show sendAll conn db (q :: (qs ++ qs2)) = _
    simp only [sendAll, ih, List.cons_append]

/-- Chaining two stretches of a run that each agree with the store. -/
theorem sendAll_chain {σ : Type} (conn : Conn σ) (db0 db1 db2 : σ) (new1 new2 : List Event)
    (h1 : sendAll conn db0 (new1.map Event.request) = (db1, new1))
    (h2 : sendAll conn db1 (new2.map Event.request) = (db2, new2)) :
    sendAll conn db0 ((new1 ++ new2).map Event.request) = (db2, new1 ++ new2) := by
  rw [List.map_append, sendAll_append, h1]
  simp only
  rw [h2]

/-- The inner loop sends to the store exactly the statements it logs. -/
theorem forEachExample_replay {σ : Type} (conn : Conn σ) (def_id : Nat) (xs : List Str) :
    ∀ w : World σ, ∃ new : List Event,
      (forEachExample conn def_id w xs).1.log = w.log ++ new ∧
      sendAll conn w.db (new.map Event.request) =
        ((forEachExample conn def_id w xs).1.db, new) := by
  induction xs with
  | nil =>
    intro w
    exact ⟨[], by simp [forEachExample], by simp [forEachExample, sendAll]⟩
  | cons x rest ih =>
    intro w
    cases hx : collectExample x with
    | error p => exact ⟨[], by simp [forEachExample, hx], by simp [forEachExample, hx, sendAll]⟩
    | ok examp =>
      obtain ⟨new, h1, h2⟩ := ih (insertExample conn w def_id examp)
      refine ⟨[Event.examp def_id examp] ++ new, ?_, ?_⟩
      · simp only [forEachExample, hx]
        rw [h1]
        simp [insertExample]
      · simp only [forEachExample, hx]
        exact sendAll_chain conn w.db _ _ _ _ rfl h2

/-- The loop over the blocks sends to the store exactly the statements it logs. -/
theorem parseDefinitionBody_replay {σ : Type} (conn : Conn σ) (word_id : Nat)
    (blocks : List DefBlock) :
    ∀ w : World σ, ∃ new : List Event,
      (parseDefinitionBody conn word_id w blocks).1.log = w.log ++ new ∧
      sendAll conn w.db (new.map Event.request) =
        ((parseDefinitionBody conn word_id w blocks).1.db, new) := by
  induction blocks with
  | nil =>
    intro w
    exact ⟨[], by simp [parseDefinitionBody], by simp [parseDefinitionBody, sendAll]⟩
  | cons b rest ih =>
    intro w
    cases hb : collectDefinition b with
    | error p =>
      exact ⟨[], by simp [parseDefinitionBody, hb], by simp [parseDefinitionBody, hb, sendAll]⟩
    | ok text =>
      cases hq : (conn w.db (.definition word_id text)).1 with
      | none =>
        have hdef := insertDefinition_none conn w word_id text hq
        refine ⟨[.definition word_id text none], ?_, ?_⟩
        · simp [parseDefinitionBody, hb, hdef]
        · simp [parseDefinitionBody, hb, hdef, sendAll, Event.request, Event.ofAnswer, hq]
      | some id =>
        have hdef := insertDefinition_some conn w word_id text id hq
        have h0 : sendAll conn w.db
            ([Event.definition word_id text (some id)].map Event.request) =
            ((conn w.db (.definition word_id text)).2,
              [Event.definition word_id text (some id)]) := by
          simp [sendAll, Event.request, Event.ofAnswer, hq]
        obtain ⟨new1, h1, h2⟩ := forEachExample_replay conn id b.exampTexts
          { w with db := (conn w.db (.definition word_id text)).2,
                   log := w.log ++ [.definition word_id text (some id)] }
        rcases hfe : forEachExample conn id
          { w with db := (conn w.db (.definition word_id text)).2,
                   log := w.log ++ [.definition word_id text (some id)] }
          b.exampTexts with ⟨w2, r1⟩
        rw [hfe] at h1 h2
        simp only at h1 h2
        have h01 := sendAll_chain conn w.db _ _ _ _ h0 h2
        cases r1 with
        | error a =>
          refine ⟨[Event.definition word_id text (some id)] ++ new1, ?_, ?_⟩
          · simp only [parseDefinitionBody, hb, hdef, hfe]
            rw [h1]; simp
          · simp only [parseDefinitionBody, hb, hdef, hfe]
            exact h01
        | ok u =>
          obtain ⟨new2, h4, h5⟩ := ih w2
          refine ⟨([Event.definition word_id text (some id)] ++ new1) ++ new2, ?_, ?_⟩
          · simp only [parseDefinitionBody, hb, hdef, hfe]
            rw [h4, h1]; simp
          · simp only [parseDefinitionBody, hb, hdef, hfe]
            exact sendAll_chain conn w.db _ _ _ _ h01 h5

/-- Processing one entry sends to the store exactly the statements it logs, in
order, and the log holds the answers the store gave. -/
theorem parseEntry_replay {σ : Type} (conn : Conn σ) (db : σ) (count : Nat)
    (e : EntryElement) :
    sendAll conn db ((parseEntry conn ⟨db, [], count⟩ e).1.log.map Event.request) =
      ((parseEntry conn ⟨db, [], count⟩ e).1.db, (parseEntry conn ⟨db, [], count⟩ e).1.log) := by
  cases hq : (conn db (.word e.title e.pos e.pron_uk e.pron_us)).1 with
  | none =>
    have hh := insertHeaderData_none conn ⟨db, [], count + 1⟩
      e.title e.pos e.pron_uk e.pron_us hq
    simp [parseEntry, collectHeaderData, hh, sendAll, Event.request, Event.ofAnswer, hq]
  | some id =>
    have hh := insertHeaderData_some conn ⟨db, [], count + 1⟩
      e.title e.pos e.pron_uk e.pron_us id hq
    have h0 : sendAll conn db
        ([Event.word e.title e.pos e.pron_uk e.pron_us (some id)].map Event.request) =
        ((conn db (.word e.title e.pos e.pron_uk e.pron_us)).2,
          [Event.word e.title e.pos e.pron_uk e.pron_us (some id)]) := by
      simp [sendAll, Event.request, Event.ofAnswer, hq]
    obtain ⟨new, h1, h2⟩ := parseDefinitionBody_replay conn id e.blocks
      { db := (conn db (.word e.title e.pos e.pron_uk e.pron_us)).2,
        log := [] ++ [.word e.title e.pos e.pron_uk e.pron_us (some id)],
        count := count + 1 }
    simp only [parseEntry, collectHeaderData, hh]
    rw [h1]
    exact sendAll_chain conn db _ _ _ _ h0 h2

/-- Arrows in the result of `formatSentence` on code points: one fewer than in an
input with arrows, none for an input without, all the later ones kept. -/
theorem formatSentence_arrows (s r : Str) (h : formatSentence s = .ok r) :
    (arrow ∈ s → r.count arrow + 1 = s.count arrow) ∧
    (arrow ∉ s → arrow ∉ r) ∧
    r.Sublist (s.erase arrow) ∧
    r.count arrow = (s.erase arrow).count arrow := by
  have hcount := formatSentence_ok_count s r h
  have hsub : r.Sublist (s.erase arrow) :=
    (formatSentence_ok_sublist s r h).trans (TrimSpace_sublist _)
  refine ⟨?_, ?_, hsub, hcount⟩
  · intro hmem
    have hpos : 0 < s.count arrow := List.count_pos_iff.mpr hmem
    rw [hcount, List.count_erase_self]
    omega
  · intro hnot hr
    exact hnot ((List.erase_sublist arrow s).subset (hsub.subset hr))

/-! ## Facts about the UTF-8 encoding -/

theorem char_toNat_lt (c : Char) : c.toNat < 0x110000 := by
  have h2 : c.val.toNat < 0xD800 ∨ (0xDFFF < c.val.toNat ∧ c.val.toNat < 0x110000) := c.valid
  show c.val.toNat < 0x110000
  omega

theorem char_eq_of_toNat_eq {a b : Char} (h : a.toNat = b.toNat) : a = b :=
  Char.ext (UInt32.ext h)

/-- No encoding of a code point is a prefix of a different encoded text. -/
theorem utf8Char_prefix_free (w c : Char) (rest : Bytes)
    (h : (utf8Char w).isPrefixOf (utf8Char c ++ rest) = true) : w = c := by
  have hw := char_toNat_lt w
  have hc := char_toNat_lt c
  apply char_eq_of_toNat_eq
  unfold utf8Char at h
  simp only at h
  split_ifs at h <;> simp [List.isPrefixOf] at h <;> omega

/-- The same, read from the end of the text. -/
theorem utf8Char_suffix_free (w c : Char) (rest : Bytes)
    (h : (utf8Char w).reverse.isPrefixOf ((utf8Char c).reverse ++ rest) = true) : w = c := by
  have hw := char_toNat_lt w
  have hc := char_toNat_lt c
  apply char_eq_of_toNat_eq
  unfold utf8Char at h
  simp only at h
  split_ifs at h <;> simp [List.isPrefixOf] at h <;> omega

/-- An encoding is a lead byte followed by continuation bytes. -/
theorem utf8Char_shape (c : Char) :
    ∃ b tl, utf8Char c = b :: tl ∧ (b < 0x80 ∨ 0xC0 ≤ b) ∧ ∀ x ∈ tl, 0x80 ≤ x ∧ x < 0xC0 := by
  have hc := char_toNat_lt c
  unfold utf8Char
  simp only
  split_ifs
  · exact ⟨_, _, rfl, by omega, by simp⟩
  · refine ⟨_, _, rfl, by omega, ?_⟩
    intro x hx
    simp at hx
    omega
  · refine ⟨_, _, rfl, by omega, ?_⟩
    intro x hx
    simp at hx
    rcases hx with hx | hx <;> omega
  · refine ⟨_, _, rfl, by omega, ?_⟩
    intro x hx
    simp at hx
    rcases hx with hx | hx | hx <;> omega

theorem utf8Char_ne_nil (c : Char) : utf8Char c ≠ [] := by
  obtain ⟨b, tl, h, -⟩ := utf8Char_shape c
  rw [h]; simp

theorem utf8_cons (c : Char) (cs : Str) : utf8 (c :: cs) = utf8Char c ++ utf8 cs := rfl

theorem utf8_append (a b : Str) : utf8 (a ++ b) = utf8 a ++ utf8 b := by
  simp [utf8]

theorem length_le_utf8 (cs : Str) : cs.length ≤ (utf8 cs).length := by
  induction cs with
  | nil => simp
  | cons c cs ih =>
    obtain ⟨b, tl, h, -⟩ := utf8Char_shape c
    rw [utf8_cons, h]
    simp
    omega

theorem isSpace_iff_mem (c : Char) : isSpace c = true ↔ c ∈ spaceRunes := by
  constructor
  · intro h
    have h1 : c = Char.ofNat c.toNat := (Char.ofNat_toNat c).symm
    unfold isSpace at h
    simp only [Bool.or_eq_true, Bool.and_eq_true, decide_eq_true_eq, beq_iff_eq] at h
    have h2 : c.toNat ∈ [0x09, 0x0A, 0x0B, 0x0C, 0x0D, 0x20, 0x85, 0xA0, 0x1680, 0x2000,
        0x2001, 0x2002, 0x2003, 0x2004, 0x2005, 0x2006, 0x2007, 0x2008, 0x2009, 0x200A,
        0x2028, 0x2029, 0x202F, 0x205F, 0x3000] := by
      simp only [List.mem_cons, List.mem_singleton]
      omega
    rw [h1]
    exact List.mem_map_of_mem Char.ofNat h2
  · intro h
    unfold spaceRunes at h
    obtain ⟨n, hn, rfl⟩ := List.mem_map.mp h
    revert n
    decide

/-! ## Trimming encoded text -/

/-- At the front of encoded text the recognised width is that of the first code
point when it is white space, and zero otherwise. -/
theorem matchWidth_enc (enc : Char → Bytes)
    (hpf : ∀ w c rest, (enc w).isPrefixOf (enc c ++ rest) = true → w = c)
    (c : Char) (rest : Bytes) :
    matchWidth (spaceRunes.map enc) (enc c ++ rest) =
      if isSpace c = true then (enc c).length else 0 := by
  unfold matchWidth
  cases hf : (spaceRunes.map enc).find? (fun e => e.isPrefixOf (enc c ++ rest)) with
  | none =>
    have hnone := List.find?_eq_none.mp hf
    have hns : ¬ isSpace c = true := by
      intro hs
      have hmem : enc c ∈ spaceRunes.map enc :=
        List.mem_map_of_mem enc ((isSpace_iff_mem c).mp hs)
      exact hnone _ hmem (List.isPrefixOf_iff_prefix.mpr (List.prefix_append _ _))
    simp [hns]
  | some e =>
    have hp := List.find?_some hf
    obtain ⟨w, hw, rfl⟩ := List.mem_map.mp (List.mem_of_find?_eq_some hf)
    have hwc : w = c := hpf w c rest hp
    subst hwc
    simp [(isSpace_iff_mem w).mpr hw]

theorem trimFront_skip (encs : List Bytes) (xs rest : Bytes) :
    trimFront encs xs.length (xs ++ rest) = trimFront encs 0 rest := by
  induction xs with
  | nil => cases rest <;> rfl
  | cons x xs ih => simpa [trimFront] using ih

/-- Trimming the front of encoded text is trimming the code points. -/
theorem trimFront_enc (enc : Char → Bytes)
    (hne : ∀ c, enc c ≠ [])
    (hpf : ∀ w c rest, (enc w).isPrefixOf (enc c ++ rest) = true → w = c)
    (cs : Str) :
    trimFront (spaceRunes.map enc) 0 (cs.map enc).flatten =
      ((cs.dropWhile isSpace).map enc).flatten := by
  induction cs with
  | nil => rfl
  | cons c cs ih =>
    have hw := matchWidth_enc enc hpf c (cs.map enc).flatten
    cases he : enc c with
    | nil => exact absurd he (hne c)
    | cons b tl =>
      rw [he] at hw
      by_cases hs : isSpace c = true
      · rw [if_pos hs] at hw
        simp only [List.map_cons, List.flatten_cons, he, List.cons_append, trimFront,
          List.dropWhile_cons, hs, if_true]
        rw [List.cons_append] at hw
        rw [hw]
        simp only [List.length_cons, Nat.add_one_ne_zero, if_false, Nat.add_sub_cancel]
        rw [trimFront_skip]
        exact ih
      · rw [if_neg hs] at hw
        simp only [List.map_cons, List.flatten_cons, he, List.cons_append, trimFront,
          List.dropWhile_cons, hs]
        rw [List.cons_append] at hw
        rw [hw]
        simp [he]

theorem TrimLeftBytes_utf8 (cs : Str) : TrimLeftBytes (utf8 cs) = utf8 (TrimLeft cs) :=
  trimFront_enc utf8Char utf8Char_ne_nil utf8Char_prefix_free cs

theorem reverse_utf8 (cs : Str) :
    (utf8 cs).reverse = (cs.reverse.map (fun w => (utf8Char w).reverse)).flatten := by
  unfold utf8
  rw [List.reverse_flatten, List.map_map, List.map_reverse]
  rfl

theorem TrimRightBytes_utf8 (cs : Str) : TrimRightBytes (utf8 cs) = utf8 (TrimRight cs) := by
  unfold TrimRightBytes
  rw [reverse_utf8,
    trimFront_enc (fun w => (utf8Char w).reverse) (fun c => by simp [utf8Char_ne_nil])
      utf8Char_suffix_free]
  unfold TrimRight
  have h := reverse_utf8 (cs.reverse.dropWhile isSpace).reverse
  rw [List.reverse_reverse] at h
  rw [← h, List.reverse_reverse]

theorem TrimSpaceBytes_utf8 (cs : Str) : TrimSpaceBytes (utf8 cs) = utf8 (TrimSpace cs) := by
  unfold TrimSpaceBytes TrimSpace
  rw [TrimLeftBytes_utf8, TrimRightBytes_utf8]

/-! ## Deleting bytes from encoded text -/

theorem removeOcc_zero (old s : Bytes) : removeOcc old 0 0 s = s := by
  cases s <;> rfl

theorem removeOcc_skip (old : Bytes) (n : Nat) (xs rest : Bytes) :
    removeOcc old n xs.length (xs ++ rest) = removeOcc old n 0 rest := by
  induction xs with
  | nil => rfl
  | cons x xs ih => simpa [removeOcc] using ih

theorem removeOcc_cons_of_not (old : Bytes) (n b : Nat) (bs : Bytes)
    (h : old.isPrefixOf (b :: bs) = false) :
    removeOcc old (n + 1) 0 (b :: bs) = b :: removeOcc old (n + 1) 0 bs := by
  simp [removeOcc, h]

theorem removeOcc_cons_of_prefix (old : Bytes) (n b : Nat) (bs : Bytes)
    (h : old.isPrefixOf (b :: bs) = true) :
    removeOcc old (n + 1) 0 (b :: bs) = removeOcc old n (old.length - 1) bs := by
  simp [removeOcc, h]

/-- Continuation bytes are passed over: no encoding starts at one. -/
theorem removeOcc_continuation (p : Char) (n : Nat) (tl rest : Bytes)
    (htl : ∀ x ∈ tl, 0x80 ≤ x ∧ x < 0xC0) :
    removeOcc (utf8Char p) (n + 1) 0 (tl ++ rest) =
      tl ++ removeOcc (utf8Char p) (n + 1) 0 rest := by
  induction tl with
  | nil => rfl
  | cons x tl ih =>
    obtain ⟨b, ptl, hp, hb, -⟩ := utf8Char_shape p
    have hx := htl x (List.mem_cons_self _ _)
    have hne : ¬ (b = x) := by omega
    have hnp : (utf8Char p).isPrefixOf (x :: (tl ++ rest)) = false := by
      rw [hp]; simp [List.isPrefixOf, hne]
    rw [List.cons_append, removeOcc_cons_of_not _ _ _ _ hnp,
      ih (fun y hy => htl y (List.mem_cons_of_mem _ hy))]
    rfl

/-- Deleting occurrences of an encoded code point from encoded text deletes that
code point. -/
theorem removeOcc_utf8 (p : Char) (cs : Str) :
    ∀ n, removeOcc (utf8Char p) n 0 (utf8 cs) = utf8 (removeUpTo p n cs) := by
  induction cs with
  | nil => intro n; cases n <;> rfl
  | cons c cs ih =>
    intro n
    cases n with
    | zero => rw [removeOcc_zero]; rfl
    | succ n =>
      obtain ⟨b, tl, hc, -, htl⟩ := utf8Char_shape c
      by_cases hcp : c = p
      · subst hcp
        have hpre : (utf8Char c).isPrefixOf (utf8Char c ++ utf8 cs) = true :=
          List.isPrefixOf_iff_prefix.mpr (List.prefix_append _ _)
        have hlen : (utf8Char c).length - 1 = tl.length := by rw [hc]; simp
        have hrem : removeUpTo c (n + 1) (c :: cs) = removeUpTo c n cs := by
          simp [removeUpTo]
        rw [utf8_cons, hrem, ← ih n, ← removeOcc_skip (utf8Char c) n tl (utf8 cs), ← hlen]
        rw [hc, List.cons_append] at hpre ⊢
        exact removeOcc_cons_of_prefix _ _ _ _ hpre
      · have hnp : (utf8Char p).isPrefixOf (utf8Char c ++ utf8 cs) = false := by
          cases h : (utf8Char p).isPrefixOf (utf8Char c ++ utf8 cs) with
          | false => rfl
          | true => exact absurd (utf8Char_prefix_free p c _ h).symm hcp
        have hrem : removeUpTo p (n + 1) (c :: cs) = c :: removeUpTo p (n + 1) cs := by
          simp [removeUpTo, hcp]
        rw [utf8_cons, hrem, utf8_cons, ← ih (n + 1)]
        rw [hc, List.cons_append] at hnp ⊢
        rw [removeOcc_cons_of_not _ _ _ _ hnp, removeOcc_continuation p n tl _ htl]
        rfl

theorem ReplaceBytes_first_utf8 (p : Char) (cs : Str) :
    ReplaceBytes (utf8 cs) (utf8Char p) 1 = utf8 (Replace cs p 1) := by
  simp [ReplaceBytes, Replace, removeOcc_utf8]

theorem ReplaceBytes_all_utf8 (p : Char) (cs : Str) :
    ReplaceBytes (utf8 cs) (utf8Char p) (-1) = utf8 (Replace cs p (-1)) := by
  simp only [ReplaceBytes, Replace, Int.reduceNeg, Int.neg_neg_iff_pos, Int.one_pos, if_true,
    removeOcc_utf8]
  rw [removeUpTo_all p cs _ (length_le_utf8 cs), removeUpTo_all p cs _ (le_refl _)]

/-- The last byte of encoded text is an ASCII byte exactly when the last code
point is that ASCII character. -/
theorem getLast_utf8 (cs : Str) (b : Nat) (hb : b < 0x80) :
    (utf8 cs).getLast? = some b ↔ ∃ c, cs.getLast? = some c ∧ c.toNat = b := by
  rcases List.eq_nil_or_concat cs with h | ⟨pre, c, h⟩
  · subst h; simp [utf8]
  · subst h
    have hne := utf8Char_ne_nil c
    have hc := char_toNat_lt c
    rw [List.concat_eq_append, utf8_append]
    have h1 : utf8 [c] = utf8Char c := by simp [utf8]
    rw [h1, List.getLast?_append, List.getLast?_concat]
    have h2 : (utf8Char c).getLast? = some b ↔ c.toNat = b := by
      unfold utf8Char
      simp only
      split_ifs <;> simp <;> omega
    cases hl : (utf8Char c).getLast? with
    | none => exact absurd (List.getLast?_eq_none_iff.mp hl) hne
    | some x =>
      rw [hl] at h2
      simpa using h2

theorem utf8_eq_nil (cs : Str) : utf8 cs = [] ↔ cs = [] := by
  cases cs with
  | nil => simp [utf8]
  | cons c cs =>
    obtain ⟨b, tl, hc, -⟩ := utf8Char_shape c
    rw [utf8_cons, hc]; simp

/-- On well-formed text the byte-level function is the code-point function. -/
theorem formatSentenceBytes_utf8 (cs : Str) :
    formatSentenceBytes (utf8 cs) =
      match formatSentence cs with
      | .ok r => .ok (utf8 r)
      | .error e => .error e := by
  have ha : arrowBytes = utf8Char arrow := by decide
  have hcolon : [0x3A] = utf8Char ':' := by decide
  have hdot : [0x2E] = utf8Char '.' := by decide
  unfold formatSentenceBytes formatSentence
  simp only
  rw [ha, ReplaceBytes_first_utf8, TrimSpaceBytes_utf8]
  generalize TrimSpace (Replace cs arrow 1) = t
  cases ht : t.getLast? with
  | none =>
    have : t = [] := List.getLast?_eq_none_iff.mp ht
    subst this
    rfl
  | some last =>
    have hne : t ≠ [] := by intro h0; rw [h0] at ht; simp at ht
    have hune : utf8 t ≠ [] := fun h0 => hne ((utf8_eq_nil t).mp h0)
    cases hl : (utf8 t).getLast? with
    | none => exact absurd (List.getLast?_eq_none_iff.mp hl) hune
    | some lb =>
      have hcol : lb = 0x3A ↔ last = ':' := by
        have := getLast_utf8 t 0x3A (by decide)
        rw [hl, ht] at this
        simp only [Option.some.injEq, exists_eq_left'] at this
        rw [this]
        exact ⟨fun h => char_eq_of_toNat_eq h, fun h => by rw [h]; rfl⟩
      have hd : lb = 0x2E ↔ last = '.' := by
        have := getLast_utf8 t 0x2E (by decide)
        rw [hl, ht] at this
        simp only [Option.some.injEq, exists_eq_left'] at this
        rw [this]
        exact ⟨fun h => char_eq_of_toNat_eq h, fun h => by rw [h]; rfl⟩
      simp only
      by_cases h1 : last = ':'
      · rw [if_pos (hcol.mpr h1), if_pos h1, hcolon, ReplaceBytes_all_utf8]
      · rw [if_neg (fun h => h1 (hcol.mp h)), if_neg h1]
        by_cases h2 : last = '.'
        · rw [if_pos (hd.mpr h2), if_pos h2, hdot, ReplaceBytes_all_utf8]
        · rw [if_neg (fun h => h2 (hd.mp h)), if_neg h2]

/-! ## Counting arrows in encoded text -/

theorem countOcc_skip (old : Bytes) (xs rest : Bytes) :
    countOcc old xs.length (xs ++ rest) = countOcc old 0 rest := by
  induction xs with
  | nil => cases rest <;> rfl
  | cons x xs ih => simpa [countOcc] using ih

theorem countOcc_continuation (p : Char) (tl rest : Bytes)
    (htl : ∀ x ∈ tl, 0x80 ≤ x ∧ x < 0xC0) :
    countOcc (utf8Char p) 0 (tl ++ rest) = countOcc (utf8Char p) 0 rest := by
  induction tl with
  | nil => rfl
  | cons x tl ih =>
    obtain ⟨b, ptl, hp, hb, -⟩ := utf8Char_shape p
    have hx := htl x (List.mem_cons_self _ _)
    have hne : ¬ (b = x) := by omega
    have hnp : (utf8Char p).isPrefixOf (x :: (tl ++ rest)) = false := by
      rw [hp]; simp [List.isPrefixOf, hne]
    rw [← ih (fun y hy => htl y (List.mem_cons_of_mem _ hy))]
    simp [countOcc, hnp]

/-- In well-formed text the occurrences of an encoded code point are the
occurrences of the code point. -/
theorem Count_utf8 (p : Char) (cs : Str) : Count (utf8 cs) (utf8Char p) = cs.count p := by
  unfold Count
  induction cs with
  | nil => rfl
  | cons c cs ih =>
    obtain ⟨b, tl, hc, -, htl⟩ := utf8Char_shape c
    by_cases hcp : c = p
    · subst hcp
      have hpre : (utf8Char c).isPrefixOf (utf8Char c ++ utf8 cs) = true :=
        List.isPrefixOf_iff_prefix.mpr (List.prefix_append _ _)
      have hlen : (utf8Char c).length - 1 = tl.length := by rw [hc]; simp
      rw [List.count_cons_self, ← ih, ← countOcc_skip (utf8Char c) tl (utf8 cs), ← hlen, utf8_cons]
      rw [hc, List.cons_append] at hpre ⊢
      simp [countOcc, hpre]
    · have hnp : (utf8Char p).isPrefixOf (utf8Char c ++ utf8 cs) = false := by
        cases h : (utf8Char p).isPrefixOf (utf8Char c ++ utf8 cs) with
        | false => rfl
        | true => exact absurd (utf8Char_prefix_free p c _ h).symm hcp
      rw [List.count_cons_of_ne (fun h => hcp h.symm), ← ih,
        ← countOcc_continuation p tl (utf8 cs) htl, utf8_cons]
      rw [hc, List.cons_append] at hnp ⊢
      simp [countOcc, hnp]

/-! ## White space at the ends of a filtered text -/

theorem head_filter_ne (g c : Char) :
    ∀ t : Str, (t.filter (fun x => decide (x ≠ g))).head? = some c →
      ∃ run post, t = run ++ c :: post ∧ ∀ x ∈ run, x = g := by
  intro t
  induction t with
  | nil => intro h; simp at h
  | cons a t ih =>
    intro h
    by_cases ha : a = g
    · subst ha
      simp only [ne_eq, not_true_eq_false, decide_False, Bool.false_eq_true,
        not_false_eq_true, List.filter_cons_of_neg] at h
      obtain ⟨run, post, ht, hrun⟩ := ih h
      refine ⟨a :: run, post, by rw [ht]; rfl, ?_⟩
      intro x hx
      rcases List.mem_cons.mp hx with h0 | h0
      · exact h0
      · exact hrun x h0
    · have hac : a = c := by simpa [List.filter_cons, ha] using h
      subst hac
      exact ⟨[], t, rfl, by simp⟩

theorem filter_run_head (g c : Char) (run post : Str) (hrun : ∀ x ∈ run, x = g)
    (hc : c ≠ g) :
    ((run ++ c :: post).filter (fun x => decide (x ≠ g))).head? = some c := by
  have h1 : run.filter (fun x => decide (x ≠ g)) = [] :=
    List.filter_eq_nil_iff.mpr (fun x hx => by simp [hrun x hx])
  rw [List.filter_append, h1]
  simp [List.filter_cons, hc]

theorem getLast_filter_ne (g c : Char) (t : Str)
    (h : (t.filter (fun x => decide (x ≠ g))).getLast? = some c) :
    ∃ pre run, t = pre ++ c :: run ∧ ∀ x ∈ run, x = g := by
  rw [List.getLast?_eq_head?_reverse, ← List.filter_reverse] at h
  obtain ⟨run, post, ht, hrun⟩ := head_filter_ne g c t.reverse h
  refine ⟨post.reverse, run.reverse, ?_, fun x hx => hrun x (List.mem_reverse.mp hx)⟩
  have := congrArg List.reverse ht
  simpa using this

theorem filter_run_getLast (g c : Char) (pre run : Str) (hrun : ∀ x ∈ run, x = g)
    (hc : c ≠ g) :
    ((pre ++ c :: run).filter (fun x => decide (x ≠ g))).getLast? = some c := by
  have h1 : run.filter (fun x => decide (x ≠ g)) = [] :=
    List.filter_eq_nil_iff.mpr (fun x hx => by simp [hrun x hx])
  rw [List.filter_append, List.filter_cons, h1]
  simp [hc]

/-- White space at the ends of a result obtained by deleting the glyph `g`. -/
theorem space_ends_of_strip (g : Char) (hg : isSpace g = false) (t : Str) :
    ((∃ c, (t.filter (fun x => decide (x ≠ g))).head? = some c ∧ isSpace c = true) ↔
      ∃ run c post, t = run ++ c :: post ∧ (∀ x ∈ run, x = g) ∧ isSpace c = true) ∧
    ((∃ c, (t.filter (fun x => decide (x ≠ g))).getLast? = some c ∧ isSpace c = true) ↔
      ∃ pre c run, t = pre ++ c :: run ∧ (∀ x ∈ run, x = g) ∧ isSpace c = true) := by
  have hne : ∀ c, isSpace c = true → c ≠ g := by
    intro c hc hcg; rw [hcg, hg] at hc; exact Bool.noConfusion hc
  constructor
  · constructor
    · rintro ⟨c, h1, h2⟩
      obtain ⟨run, post, ht, hrun⟩ := head_filter_ne g c t h1
      exact ⟨run, c, post, ht, hrun, h2⟩
    · rintro ⟨run, c, post, ht, hrun, h2⟩
      exact ⟨c, by rw [ht]; exact filter_run_head g c run post hrun (hne c h2), h2⟩
  · constructor
    · rintro ⟨c, h1, h2⟩
      obtain ⟨pre, run, ht, hrun⟩ := getLast_filter_ne g c t h1
      exact ⟨pre, c, run, ht, hrun, h2⟩
    · rintro ⟨pre, c, run, ht, hrun, h2⟩
      exact ⟨c, by rw [ht]; exact filter_run_getLast g c pre run hrun (hne c h2), h2⟩

theorem formatSentenceBytes_utf8_ok (s : Str) (r : Bytes)
    (h : formatSentenceBytes (utf8 s) = .ok r) :
    ∃ rc, formatSentence s = .ok rc ∧ r = utf8 rc := by
  rw [formatSentenceBytes_utf8] at h
  cases hf : formatSentence s with
  | error e => rw [hf] at h; cases h
  | ok rc => rw [hf] at h; cases h; exact ⟨rc, rfl, rfl⟩

/-- White space at the ends of the result of `formatSentence` on code points. -/
theorem formatSentence_space_ends (s r : Str) (h : formatSentence s = .ok r) :
    ((∃ c, r.head? = some c ∧ isSpace c = true) ↔
      ∃ g run c post, (g = ':' ∨ g = '.') ∧
        (TrimSpace (s.erase arrow)).getLast? = some g ∧
        TrimSpace (s.erase arrow) = run ++ c :: post ∧ (∀ x ∈ run, x = g) ∧
        isSpace c = true) ∧
    ((∃ c, r.getLast? = some c ∧ isSpace c = true) ↔
      ∃ g pre c run, (g = ':' ∨ g = '.') ∧
        (TrimSpace (s.erase arrow)).getLast? = some g ∧
        TrimSpace (s.erase arrow) = pre ++ c :: run ∧ (∀ x ∈ run, x = g) ∧
        isSpace c = true) := by
  rcases formatSentence_cases s with hc | hc | hc | hc
  · rw [hc.2] at h; cases h
  · rw [hc.2] at h; cases h
    have hs := space_ends_of_strip ':' (by decide) (TrimSpace (s.erase arrow))
    constructor
    · rw [hs.1]
      constructor
      · rintro ⟨run, c, post, h1, h2, h3⟩
        exact ⟨':', run, c, post, Or.inl rfl, hc.1, h1, h2, h3⟩
      · rintro ⟨g, run, c, post, -, hg, h1, h2, h3⟩
        have hgc : g = ':' := by rw [hc.1] at hg; exact (Option.some.inj hg).symm
        subst hgc
        exact ⟨run, c, post, h1, h2, h3⟩
    · rw [hs.2]
      constructor
      · rintro ⟨pre, c, run, h1, h2, h3⟩
        exact ⟨':', pre, c, run, Or.inl rfl, hc.1, h1, h2, h3⟩
      · rintro ⟨g, pre, c, run, -, hg, h1, h2, h3⟩
        have hgc : g = ':' := by rw [hc.1] at hg; exact (Option.some.inj hg).symm
        subst hgc
        exact ⟨pre, c, run, h1, h2, h3⟩
  · rw [hc.2] at h; cases h
    have hs := space_ends_of_strip '.' (by decide) (TrimSpace (s.erase arrow))
    constructor
    · rw [hs.1]
      constructor
      · rintro ⟨run, c, post, h1, h2, h3⟩
        exact ⟨'.', run, c, post, Or.inr rfl, hc.1, h1, h2, h3⟩
      · rintro ⟨g, run, c, post, -, hg, h1, h2, h3⟩
        have hgc : g = '.' := by rw [hc.1] at hg; exact (Option.some.inj hg).symm
        subst hgc
        exact ⟨run, c, post, h1, h2, h3⟩
    · rw [hs.2]
      constructor
      · rintro ⟨pre, c, run, h1, h2, h3⟩
        exact ⟨'.', pre, c, run, Or.inr rfl, hc.1, h1, h2, h3⟩
      · rintro ⟨g, pre, c, run, -, hg, h1, h2, h3⟩
        have hgc : g = '.' := by rw [hc.1] at hg; exact (Option.some.inj hg).symm
        subst hgc
        exact ⟨pre, c, run, h1, h2, h3⟩
  · rw [hc.2.2.2] at h; cases h
    obtain ⟨-, h1, h2, -⟩ := hc
    constructor
    · constructor
      · rintro ⟨c, hh, hsp⟩
        rw [TrimSpace_head _ c hh] at hsp
        exact Bool.noConfusion hsp
      · rintro ⟨g, run, c, post, hg, hl, -⟩
        rcases hg with rfl | rfl
        · exact absurd hl h1
        · exact absurd hl h2
    · constructor
      · rintro ⟨c, hh, hsp⟩
        rw [TrimSpace_getLast _ c hh] at hsp
        exact Bool.noConfusion hsp
      · rintro ⟨g, pre, c, run, hg, hl, -⟩
        rcases hg with rfl | rfl
        · exact absurd hl h1
        · exact absurd hl h2

/-! ## The text normaliser -/

/-- C2: when the string left after removing the first arrow and trimming is
non-empty and ends with a colon, `formatSentence` returns it with every colon
deleted and all other characters kept in order; `"foo:"` gives `"foo"` and
`"foo:bar:"` gives `"foobar"`. -/
theorem formatSentence_strips_all_colons :
    (∀ s : Str, TrimSpace (s.erase arrow) ≠ [] →
      (TrimSpace (s.erase arrow)).getLast? = some ':' →
      formatSentence s =
        .ok ((TrimSpace (s.erase arrow)).filter (fun c => decide (c ≠ ':')))) ∧
    formatSentence "foo:".toList = .ok "foo".toList ∧
    formatSentence "foo:bar:".toList = .ok "foobar".toList := by
  refine ⟨?_, by decide, by decide⟩
  intro s hne hlast
  rcases formatSentence_cases s with h | h | h | h
  · exact absurd h.1 hne
  · exact h.2
  · rw [hlast] at h; exact absurd h.1 (by decide)
  · exact absurd hlast h.2.1

/-- Instance of C2 at `"a.b: c:"`, where the periods and the space stay. -/
theorem formatSentence_strips_all_colons_witness :
    TrimSpace ("a.b: c:".toList.erase arrow) ≠ [] ∧
    (TrimSpace ("a.b: c:".toList.erase arrow)).getLast? = some ':' ∧
    formatSentence "a.b: c:".toList = .ok "a.b c".toList :=
  ⟨by decide, by decide,
    formatSentence_strips_all_colons.1 "a.b: c:".toList (by decide) (by decide)⟩

/-- C3: when the string left after removing the first arrow and trimming is
non-empty and ends with a period, `formatSentence` returns it with every period
deleted and all other characters (colons included) kept in order; `"foo."`
gives `"foo"`. -/
theorem formatSentence_strips_all_periods :
    (∀ s : Str, TrimSpace (s.erase arrow) ≠ [] →
      (TrimSpace (s.erase arrow)).getLast? = some '.' →
      formatSentence s =
        .ok ((TrimSpace (s.erase arrow)).filter (fun c => decide (c ≠ '.')))) ∧
    formatSentence "foo.".toList = .ok "foo".toList := by
  refine ⟨?_, by decide⟩
  intro s hne hlast
  rcases formatSentence_cases s with h | h | h | h
  · exact absurd h.1 hne
  · rw [hlast] at h; exact absurd h.1 (by decide)
  · exact h.2
  · exact absurd hlast h.2.2.1

/-- Instance of C3 at `"e.g. a:b."`, where the colon stays. -/
theorem formatSentence_strips_all_periods_witness :
    TrimSpace ("e.g. a:b.".toList.erase arrow) ≠ [] ∧
    (TrimSpace ("e.g. a:b.".toList.erase arrow)).getLast? = some '.' ∧
    formatSentence "e.g. a:b.".toList = .ok "eg a:b".toList :=
  ⟨by decide, by decide,
    formatSentence_strips_all_periods.1 "e.g. a:b.".toList (by decide) (by decide)⟩

/-- C5: `formatSentence` fails with the index-out-of-range panic exactly when its
input is empty after the first arrow is removed and white space is trimmed, as
for `""`, `"   "` and `" → "`; on every other input it returns a string. -/
theorem formatSentence_panics_iff_trimmed_empty :
    (∀ s : Str, (formatSentence s = .error .indexOutOfRange ↔
        TrimSpace (s.erase arrow) = []) ∧
      (TrimSpace (s.erase arrow) ≠ [] ↔ ∃ r, formatSentence s = .ok r)) ∧
    formatSentence "".toList = .error .indexOutOfRange ∧
    formatSentence "   ".toList = .error .indexOutOfRange ∧
    formatSentence " → ".toList = .error .indexOutOfRange := by
  refine ⟨?_, by decide, by decide, by decide⟩
  intro s
  rcases formatSentence_cases s with h | h | h | h
  · simp [h.1, h.2]
  · have hne : TrimSpace (s.erase arrow) ≠ [] := by
      intro h0; rw [h0] at h; simp at h
    simp [h.2, hne]
  · have hne : TrimSpace (s.erase arrow) ≠ [] := by
      intro h0; rw [h0] at h; simp at h
    simp [h.2, hne]
  · simp [h.1, h.2.2.2]

/-- C4 (as stated, refuted): the bytes `E2 3A 86 92 3A` contain no arrow, and
`formatSentence` returns `E2 86 92`, the arrow; the bytes `E2 E2 86 92 86 92`
contain one arrow, and the result contains one as well. -/
theorem formatSentenceBytes_splices_arrow :
    Count [0xE2, 0x3A, 0x86, 0x92, 0x3A] arrowBytes = 0 ∧
    ¬ arrowBytes <:+: [0xE2, 0x3A, 0x86, 0x92, 0x3A] ∧
    formatSentenceBytes [0xE2, 0x3A, 0x86, 0x92, 0x3A] = .ok [0xE2, 0x86, 0x92] ∧
    Count [0xE2, 0x86, 0x92] arrowBytes = 1 ∧
    Count [0xE2, 0xE2, 0x86, 0x92, 0x86, 0x92] arrowBytes = 1 ∧
    formatSentenceBytes [0xE2, 0xE2, 0x86, 0x92, 0x86, 0x92] = .ok [0xE2, 0x86, 0x92] := by
  decide

/-- C4 (amended): on well-formed UTF-8 text `formatSentence` removes the first
arrow and no other: when the call succeeds on a text with `k ≥ 1` arrows the
result has `k - 1` arrows, on a text without arrows it has none, and the result
is well-formed text whose code points are a subsequence of the input with its
first arrow erased that keeps all the remaining arrows; in `"a → b"` the single
arrow is removed. -/
theorem formatSentenceBytes_removes_first_arrow_only :
    (∀ (s : Str) (r : Bytes), formatSentenceBytes (utf8 s) = .ok r →
      (0 < Count (utf8 s) arrowBytes →
        Count r arrowBytes + 1 = Count (utf8 s) arrowBytes) ∧
      (Count (utf8 s) arrowBytes = 0 → Count r arrowBytes = 0) ∧
      ∃ rc : Str, r = utf8 rc ∧ rc.Sublist (s.erase arrow) ∧
        rc.count arrow = (s.erase arrow).count arrow) ∧
    formatSentenceBytes (utf8 "a → b".toList) = .ok (utf8 "a  b".toList) := by
  have ha : arrowBytes = utf8Char arrow := by decide
  refine ⟨?_, by decide⟩
  intro s r h
  obtain ⟨rc, hrc, rfl⟩ := formatSentenceBytes_utf8_ok s r h
  obtain ⟨h1, h2, h3, h4⟩ := formatSentence_arrows s rc hrc
  rw [ha, Count_utf8, Count_utf8]
  refine ⟨?_, ?_, rc, rfl, h3, h4⟩
  · intro hpos
    exact h1 (List.count_pos_iff.mp hpos)
  · intro hz
    exact List.count_eq_zero.mpr (h2 (List.count_eq_zero.mp hz))

/-- Instance of the amended C4 at a text with two arrows, of which the second
stays. -/
theorem formatSentenceBytes_removes_first_arrow_only_witness :
    formatSentenceBytes (utf8 "→ see → also:".toList) = .ok (utf8 "see → also".toList) ∧
    Count (utf8 "→ see → also:".toList) arrowBytes = 2 ∧
    Count (utf8 "see → also".toList) arrowBytes = 1 ∧
    (0 < Count (utf8 "→ see → also:".toList) arrowBytes →
      Count (utf8 "see → also".toList) arrowBytes + 1 =
        Count (utf8 "→ see → also:".toList) arrowBytes) :=
  ⟨by decide, by decide, by decide,
    (formatSentenceBytes_removes_first_arrow_only.1 "→ see → also:".toList
      (utf8 "see → also".toList) (by decide)).1⟩

/-- C6 (as stated, refuted): the gloss text `":"` is normalised successfully and
the returned string is empty; `collectDefinition` returns it and `parseEntry`
sends it to the store as the definition text. -/
theorem formatSentence_colon_gives_empty :
    formatSentence ":".toList = .ok [] ∧
    collectDefinition ⟨":".toList, []⟩ = .ok [] ∧
    (parseEntry counterConn ⟨0, [], 0⟩ ⟨"cat".toList, [], [], [], [⟨":".toList, []⟩]⟩).1.log =
      [.word "cat".toList [] [] [] (some 1), .definition 1 [] (some 2)] ∧
    ¬ (∀ s r : Str, formatSentence s = .ok r → r ≠ []) := by
  refine ⟨by decide, by decide, by decide, ?_⟩
  intro h
  exact h ":".toList [] (by decide) rfl

/-- C6 (amended): a successful `formatSentence` returns the empty string exactly
when the text left after removing the first arrow and trimming consists only of
colons or only of periods; in every other case the result is non-empty. -/
theorem formatSentence_empty_iff (s r : Str) (h : formatSentence s = .ok r) :
    r = [] ↔ ((∀ c ∈ TrimSpace (s.erase arrow), c = ':') ∨
      (∀ c ∈ TrimSpace (s.erase arrow), c = '.')) := by
  rcases formatSentence_cases s with hc | hc | hc | hc
  · rw [hc.2] at h; cases h
  · rw [hc.2] at h; cases h
    have hmem := List.mem_of_getLast?_eq_some hc.1
    constructor
    · intro h0
      left
      intro c hcm
      have := List.filter_eq_nil_iff.mp h0 c hcm
      simpa using this
    · rintro (hall | hall)
      · exact List.filter_eq_nil_iff.mpr (fun a ha => by simp [hall a ha])
      · exact absurd (hall _ hmem) (by decide)
  · rw [hc.2] at h; cases h
    have hmem := List.mem_of_getLast?_eq_some hc.1
    constructor
    · intro h0
      right
      intro c hcm
      have := List.filter_eq_nil_iff.mp h0 c hcm
      simpa using this
    · rintro (hall | hall)
      · exact absurd (hall _ hmem) (by decide)
      · exact List.filter_eq_nil_iff.mpr (fun a ha => by simp [hall a ha])
  · rw [hc.2.2.2] at h; cases h
    obtain ⟨hne, h1, h2, -⟩ := hc
    constructor
    · intro h0; exact absurd h0 hne
    · have hl := List.getLast?_eq_getLast _ hne
      have hmem := List.getLast_mem hne
      rintro (hall | hall)
      · rw [hall _ hmem] at hl; exact absurd hl h1
      · rw [hall _ hmem] at hl; exact absurd hl h2

/-- Instance of the amended C6 at `" ... "`, which normalises to the empty string. -/
theorem formatSentence_empty_iff_witness :
    formatSentence " ... ".toList = .ok [] ∧
    (([] : Str) = [] ↔ ((∀ c ∈ TrimSpace (" ... ".toList.erase arrow), c = ':') ∨
      (∀ c ∈ TrimSpace (" ... ".toList.erase arrow), c = '.'))) :=
  ⟨by decide, formatSentence_empty_iff " ... ".toList [] (by decide)⟩

/-- C10 (as stated, refuted): `"a :"` is normalised to `"a "`, which ends with a
space, and `": a:"` to `" a"`, which begins with one.  On the ill-formed bytes
`E2 3A 80 80 78 3A`, which hold no white space, the result is the encoding of
U+2000 followed by `x`: deleting the colons splices a white space character. -/
theorem formatSentence_result_not_trimmed :
    formatSentence "a :".toList = .ok "a ".toList ∧
    "a ".toList.getLast? = some ' ' ∧
    formatSentence ": a:".toList = .ok " a".toList ∧
    " a".toList.head? = some ' ' ∧
    isSpace ' ' = true ∧
    formatSentenceBytes (utf8 "a :".toList) = .ok (utf8 "a ".toList) ∧
    formatSentenceBytes (utf8 ": a:".toList) = .ok (utf8 " a".toList) ∧
    formatSentenceBytes [0xE2, 0x3A, 0x80, 0x80, 0x78, 0x3A] =
      .ok (utf8 [Char.ofNat 0x2000, 'x']) ∧
    isSpace (Char.ofNat 0x2000) = true := by
  decide

/-- C10 (amended): on well-formed UTF-8 text, with `t` the text left after
removing the first arrow and trimming, the result of `formatSentence` begins
with white space exactly when `t` ends with a glyph `g` that is `:` or `.` and
consists of a run of `g` followed by a white space character; it ends with white
space exactly when `t` ends with such a `g` and a white space character is
followed in `t` only by a run of `g`.  So a result that begins with white space
comes from a `t` that begins and ends with the stripped glyph, and when `t` ends
with neither `:` nor `.` the result has white space at neither end. -/
theorem formatSentenceBytes_space_ends (s : Str) (r : Bytes)
    (h : formatSentenceBytes (utf8 s) = .ok r) :
    ∃ rc : Str, r = utf8 rc ∧
      ((∃ c, rc.head? = some c ∧ isSpace c = true) ↔
        ∃ g run c post, (g = ':' ∨ g = '.') ∧
          (TrimSpace (s.erase arrow)).getLast? = some g ∧
          TrimSpace (s.erase arrow) = run ++ c :: post ∧ (∀ x ∈ run, x = g) ∧
          isSpace c = true) ∧
      ((∃ c, rc.getLast? = some c ∧ isSpace c = true) ↔
        ∃ g pre c run, (g = ':' ∨ g = '.') ∧
          (TrimSpace (s.erase arrow)).getLast? = some g ∧
          TrimSpace (s.erase arrow) = pre ++ c :: run ∧ (∀ x ∈ run, x = g) ∧
          isSpace c = true) ∧
      ((∃ c, rc.head? = some c ∧ isSpace c = true) →
        ∃ g, (g = ':' ∨ g = '.') ∧ (TrimSpace (s.erase arrow)).getLast? = some g ∧
          (TrimSpace (s.erase arrow)).head? = some g) ∧
      ((TrimSpace (s.erase arrow)).getLast? ≠ some ':' →
        (TrimSpace (s.erase arrow)).getLast? ≠ some '.' →
        (∀ c, rc.head? = some c → isSpace c = false) ∧
        (∀ c, rc.getLast? = some c → isSpace c = false)) := by
  obtain ⟨rc, hrc, rfl⟩ := formatSentenceBytes_utf8_ok s r h
  obtain ⟨hl, ht⟩ := formatSentence_space_ends s rc hrc
  refine ⟨rc, rfl, hl, ht, ?_, ?_⟩
  · intro hsp
    obtain ⟨g, run, c, post, hg, hlast, hdec, hrun, hc⟩ := hl.mp hsp
    refine ⟨g, hg, hlast, ?_⟩
    cases run with
    | nil =>
      have hh : (TrimSpace (s.erase arrow)).head? = some c := by rw [hdec]; rfl
      rw [TrimSpace_head _ c hh] at hc
      exact Bool.noConfusion hc
    | cons a run =>
      rw [hdec, hrun a (List.mem_cons_self _ _)]
      rfl
  · intro h1 h2
    constructor
    · intro c hc
      cases hsp : isSpace c with
      | false => rfl
      | true =>
        obtain ⟨g, _, _, _, hg, hlast, -⟩ := hl.mp ⟨c, hc, hsp⟩
        rcases hg with rfl | rfl
        · exact absurd hlast h1
        · exact absurd hlast h2
    · intro c hc
      cases hsp : isSpace c with
      | false => rfl
      | true =>
        obtain ⟨g, _, _, _, hg, hlast, -⟩ := ht.mp ⟨c, hc, hsp⟩
        rcases hg with rfl | rfl
        · exact absurd hlast h1
        · exact absurd hlast h2

/-- Instance of the amended C10 at `" foo: "`, whose result `"foo"` has white
space at neither end. -/
theorem formatSentenceBytes_space_ends_witness :
    formatSentenceBytes (utf8 " foo: ".toList) = .ok (utf8 "foo".toList) ∧
    ∃ rc : Str, utf8 "foo".toList = utf8 rc ∧
      ((∃ c, rc.head? = some c ∧ isSpace c = true) ↔
        ∃ g run c post, (g = ':' ∨ g = '.') ∧
          (TrimSpace (" foo: ".toList.erase arrow)).getLast? = some g ∧
          TrimSpace (" foo: ".toList.erase arrow) = run ++ c :: post ∧ (∀ x ∈ run, x = g) ∧
          isSpace c = true) ∧
      ((∃ c, rc.getLast? = some c ∧ isSpace c = true) ↔
        ∃ g pre c run, (g = ':' ∨ g = '.') ∧
          (TrimSpace (" foo: ".toList.erase arrow)).getLast? = some g ∧
          TrimSpace (" foo: ".toList.erase arrow) = pre ++ c :: run ∧ (∀ x ∈ run, x = g) ∧
          isSpace c = true) ∧
      ((∃ c, rc.head? = some c ∧ isSpace c = true) →
        ∃ g, (g = ':' ∨ g = '.') ∧
          (TrimSpace (" foo: ".toList.erase arrow)).getLast? = some g ∧
          (TrimSpace (" foo: ".toList.erase arrow)).head? = some g) ∧
      ((TrimSpace (" foo: ".toList.erase arrow)).getLast? ≠ some ':' →
        (TrimSpace (" foo: ".toList.erase arrow)).getLast? ≠ some '.' →
        (∀ c, rc.head? = some c → isSpace c = false) ∧
        (∀ c, rc.getLast? = some c → isSpace c = false)) :=
  ⟨by decide,
    formatSentenceBytes_space_ends " foo: ".toList (utf8 "foo".toList) (by decide)⟩

/-- C1 (as stated, refuted): on the non-empty string `"a.:"` the first call
returns `"a."` and the second call returns `"a"`; on the non-empty string `":"`
the first call returns `""`, on which the second call panics. -/
theorem formatSentence_not_idempotent :
    "a.:".toList ≠ [] ∧
    formatSentence "a.:".toList = .ok "a.".toList ∧
    formatSentence "a.".toList = .ok "a".toList ∧
    "a".toList ≠ "a.".toList ∧
    ":".toList ≠ [] ∧
    formatSentence ":".toList = .ok [] ∧
    formatSentence [] = .error .indexOutOfRange := by
  decide

/-- C1 (amended): for every string `s`, the second call of `formatSentence` is
defined and returns the result of the first call exactly when the first call
succeeds with a result that is non-empty, contains no arrow, begins with no white
space, and ends with neither white space nor a colon nor a period. -/
theorem formatSentence_idempotent_iff (s : Str) :
    (∃ r, formatSentence s = .ok r ∧ formatSentence r = .ok r) ↔
    (∃ r, formatSentence s = .ok r ∧ r ≠ [] ∧ arrow ∉ r ∧
      (∀ c, r.head? = some c → isSpace c = false) ∧
      (∀ c, r.getLast? = some c → isSpace c = false ∧ c ≠ ':' ∧ c ≠ '.')) := by
  constructor
  · rintro ⟨r, h1, h2⟩
    exact ⟨r, h1, (formatSentence_fixed_iff r).mp h2⟩
  · rintro ⟨r, h1, h2⟩
    exact ⟨r, h1, (formatSentence_fixed_iff r).mpr h2⟩

/-! ## The StageLink filter -/

/-- C7 (as stated, refuted): the href `/a?u=https://b` is non-empty, starts with
`/` and does not begin with `https://`, yet the StageLink callback dispatches no
fetch for it. -/
theorem stageLink_drops_relative_href :
    "/a?u=https://b".toList ≠ [] ∧
    "/a?u=https://b".toList.head? = some '/' ∧
    ¬ "https://".toList <+: "/a?u=https://b".toList ∧
    setupCollectors 3 "/a?u=https://b".toList = [] := by
  refine ⟨by decide, by decide, ?_, by decide⟩
  rw [← List.isPrefixOf_iff_prefix]
  decide

/-- C7 (amended): the StageLink callback dispatches nothing for an href that
contains `https://` anywhere (so in particular for one that begins with it, such
as `https://external.com/x`) and nothing for the empty href; for every non-empty
href that does not contain `https://` it dispatches exactly one fetch, to
collector 0 (StageEntry), with the URL `https://dictionary.cambridge.org`
followed by the href. -/
theorem stageLink_filter :
    (∀ href : Str, "https://".toList <:+: href → setupCollectors 3 href = []) ∧
    (∀ href : Str, "https://".toList <+: href → setupCollectors 3 href = []) ∧
    setupCollectors 3 "https://external.com/x".toList = [] ∧
    setupCollectors 3 [] = [] ∧
    (∀ href : Str, href ≠ [] → ¬ "https://".toList <:+: href →
      setupCollectors 3 href =
        [⟨0, "https://dictionary.cambridge.org".toList ++ href⟩]) := by
  have hin : ∀ href : Str, "https://".toList <:+: href → setupCollectors 3 href = [] := by
    intro href h
    have hc := (Contains_iff_isInfix href "https://".toList).mpr h
    show (if href ≠ [] ∧ ¬ Contains href "https://".toList = true then _ else _) = _
    rw [if_neg (fun hx => hx.2 hc)]
  refine ⟨hin, fun href h => hin href h.isInfix, by decide, by decide, ?_⟩
  intro href hne hnot
  have hc : ¬ Contains href "https://".toList = true :=
    fun h => hnot ((Contains_iff_isInfix href "https://".toList).mp h)
  show (if href ≠ [] ∧ ¬ Contains href "https://".toList = true then _ else _) = _
  rw [if_pos ⟨hne, hc⟩]
  rfl

set_option maxRecDepth 8000 in
/-- Instance of the amended C7 at the href `/dictionary/english/cat`. -/
theorem stageLink_filter_witness :
    "/dictionary/english/cat".toList ≠ [] ∧
    ¬ "https://".toList <:+: "/dictionary/english/cat".toList ∧
    setupCollectors 3 "/dictionary/english/cat".toList =
      [⟨0, "https://dictionary.cambridge.org/dictionary/english/cat".toList⟩] :=
  ⟨by decide,
    fun h => absurd ((Contains_iff_isInfix _ _).mpr h) (by decide),
    stageLink_filter.2.2.2.2 "/dictionary/english/cat".toList (by decide)
      (fun h => absurd ((Contains_iff_isInfix _ _).mpr h) (by decide))⟩

/-! ## The insert sequence of `parseEntry` -/

/-- C8: for an entry whose blocks normalise to the definitions `d1..dn` and a
store whose inserts all succeed, `parseEntry` returns normally after issuing
exactly one word insert followed, for each definition in document order, by its
definition insert and one example insert per example in order; every definition
insert carries the id that the store returned for the word insert and every
example insert the id that the store returned for its own definition's insert;
and the store has received exactly these statements in this order: sending them
to it one by one from its initial state gives its final state and the recorded
answers. -/
theorem parseEntry_insert_sequence {σ : Type} (conn : Conn σ)
    (hsucc : ∀ (db : σ) (q : Insert), (conn db q).1 ≠ none)
    (db : σ) (count : Nat) (e : EntryElement) (defs : List Definition)
    (hnorm : Normalises e.blocks defs) :
    ∃ (word_id : Nat) (ids : List Nat),
      (conn db (.word e.title e.pos e.pron_uk e.pron_us)).1 = some word_id ∧
      ids.length = defs.length ∧
      (parseEntry conn ⟨db, [], count⟩ e).2 = .ok () ∧
      (parseEntry conn ⟨db, [], count⟩ e).1.log =
        .word e.title e.pos e.pron_uk e.pron_us (some word_id) ::
          expectedInserts word_id (defs.zip ids) ∧
      sendAll conn db
          (.word e.title e.pos e.pron_uk e.pron_us ::
            (expectedInserts word_id (defs.zip ids)).map Event.request) =
        ((parseEntry conn ⟨db, [], count⟩ e).1.db,
          .word e.title e.pos e.pron_uk e.pron_us (some word_id) ::
            expectedInserts word_id (defs.zip ids)) := by
  obtain ⟨word_id, hid⟩ := Option.ne_none_iff_exists'.mp
    (hsucc db (.word e.title e.pos e.pron_uk e.pron_us))
  have hh := insertHeaderData_some conn ⟨db, [], count + 1⟩
    e.title e.pos e.pron_uk e.pron_us word_id hid
  obtain ⟨w2, ids, h1, h2, h3, -⟩ := parseDefinitionBody_ok conn word_id
    (fun db q _ => hsucc db q) e.blocks defs hnorm
    { db := (conn db (.word e.title e.pos e.pron_uk e.pron_us)).2,
      log := [] ++ [.word e.title e.pos e.pron_uk e.pron_us (some word_id)],
      count := count + 1 }
  have hlog : (parseEntry conn ⟨db, [], count⟩ e).1.log =
      .word e.title e.pos e.pron_uk e.pron_us (some word_id) ::
        expectedInserts word_id (defs.zip ids) := by
    simp only [parseEntry, collectHeaderData, hh, h1]
    rw [h3]
    simp
  have hre := parseEntry_replay conn db count e
  rw [hlog] at hre
  refine ⟨word_id, ids, hid, h2, ?_, hlog, hre⟩
  simp only [parseEntry, collectHeaderData, hh, h1]

/-- Instance of C8 at an entry with one definition and one example: one word, one
definition and one example insert, each child carrying its parent's id, and a
store left with three rows. -/
theorem parseEntry_insert_sequence_witness :
    (∀ (db : Nat) (q : Insert), (counterConn db q).1 ≠ none) ∧
    Normalises sampleEntry.blocks [⟨"a small animal".toList, ["The cat sat".toList]⟩] ∧
    (parseEntry counterConn ⟨0, [], 0⟩ sampleEntry).1.log =
      [.word "cat".toList "noun".toList "kæt".toList "kæt".toList (some 1),
       .definition 1 "a small animal".toList (some 2),
       .examp 2 "The cat sat".toList] ∧
    (parseEntry counterConn ⟨0, [], 0⟩ sampleEntry).1.db = 3 ∧
    ∃ (word_id : Nat) (ids : List Nat),
      (counterConn 0 (.word sampleEntry.title sampleEntry.pos sampleEntry.pron_uk
        sampleEntry.pron_us)).1 = some word_id ∧
      ids.length = [(⟨"a small animal".toList, ["The cat sat".toList]⟩ : Definition)].length ∧
      (parseEntry counterConn ⟨0, [], 0⟩ sampleEntry).2 = .ok () ∧
      (parseEntry counterConn ⟨0, [], 0⟩ sampleEntry).1.log =
        .word sampleEntry.title sampleEntry.pos sampleEntry.pron_uk sampleEntry.pron_us
            (some word_id) ::
          expectedInserts word_id
            ([(⟨"a small animal".toList, ["The cat sat".toList]⟩ : Definition)].zip ids) ∧
      sendAll counterConn 0
          (.word sampleEntry.title sampleEntry.pos sampleEntry.pron_uk sampleEntry.pron_us ::
            (expectedInserts word_id
              ([(⟨"a small animal".toList, ["The cat sat".toList]⟩ : Definition)].zip
                ids)).map Event.request) =
        ((parseEntry counterConn ⟨0, [], 0⟩ sampleEntry).1.db,
          .word sampleEntry.title sampleEntry.pos sampleEntry.pron_uk sampleEntry.pron_us
              (some word_id) ::
            expectedInserts word_id
              ([(⟨"a small animal".toList, ["The cat sat".toList]⟩ : Definition)].zip ids)) :=
  ⟨fun _ _ => by simp [counterConn],
    List.Forall₂.cons ⟨by decide, List.Forall₂.cons (by decide) List.Forall₂.nil⟩
      List.Forall₂.nil,
    by decide,
    by decide,
    parseEntry_insert_sequence counterConn (fun _ _ => by simp [counterConn]) 0 0 sampleEntry
      [⟨"a small animal".toList, ["The cat sat".toList]⟩]
      (List.Forall₂.cons ⟨by decide, List.Forall₂.cons (by decide) List.Forall₂.nil⟩
        List.Forall₂.nil)⟩

/-- C9: in every run of `parseEntry` the store receives exactly the logged
statements, in order.  If the word insert fails, the run exits with code 1 and
that insert is the only statement sent; a failed definition insert is the last
statement sent and the run exits with code 1; and when only example inserts may
fail, the run returns normally after sending the whole sequence of word,
definition and example inserts in order, whatever the store answers to the
example inserts. -/
theorem parseEntry_failure_policy {σ : Type} (conn : Conn σ) (db : σ) (count : Nat)
    (e : EntryElement) :
    sendAll conn db ((parseEntry conn ⟨db, [], count⟩ e).1.log.map Event.request) =
      ((parseEntry conn ⟨db, [], count⟩ e).1.db, (parseEntry conn ⟨db, [], count⟩ e).1.log) ∧
    ((conn db (.word e.title e.pos e.pron_uk e.pron_us)).1 = none →
      (parseEntry conn ⟨db, [], count⟩ e).2 = .error (.exit 1) ∧
      (parseEntry conn ⟨db, [], count⟩ e).1.log =
        [.word e.title e.pos e.pron_uk e.pron_us none] ∧
      (parseEntry conn ⟨db, [], count⟩ e).1.db =
        (conn db (.word e.title e.pos e.pron_uk e.pron_us)).2) ∧
    (∀ (pre post : List Event) (word_id : Nat) (text : Str),
      (parseEntry conn ⟨db, [], count⟩ e).1.log =
        pre ++ .definition word_id text none :: post →
      post = [] ∧ (parseEntry conn ⟨db, [], count⟩ e).2 = .error (.exit 1)) ∧
    (∀ defs : List Definition,
      (∀ (db : σ) (q : Insert), q.isExamp = false → (conn db q).1 ≠ none) →
      Normalises e.blocks defs →
      ∃ (word_id : Nat) (ids : List Nat),
        ids.length = defs.length ∧
        (parseEntry conn ⟨db, [], count⟩ e).2 = .ok () ∧
        (parseEntry conn ⟨db, [], count⟩ e).1.log =
          .word e.title e.pos e.pron_uk e.pron_us (some word_id) ::
            expectedInserts word_id (defs.zip ids) ∧
        sendAll conn db
            (.word e.title e.pos e.pron_uk e.pron_us ::
              (expectedInserts word_id (defs.zip ids)).map Event.request) =
          ((parseEntry conn ⟨db, [], count⟩ e).1.db,
            .word e.title e.pos e.pron_uk e.pron_us (some word_id) ::
              expectedInserts word_id (defs.zip ids))) := by
  refine ⟨parseEntry_replay conn db count e, ?_, ?_, ?_⟩
  · intro hq
    have hh := insertHeaderData_none conn ⟨db, [], count + 1⟩
      e.title e.pos e.pron_uk e.pron_us hq
    refine ⟨?_, ?_, ?_⟩
    · simp only [parseEntry, collectHeaderData, hh]
    · simp only [parseEntry, collectHeaderData, hh]
      simp
    · simp only [parseEntry, collectHeaderData, hh]
  · intro pre post word_id text hlog
    obtain ⟨new, h1, h2⟩ := parseEntry_trace conn ⟨db, [], count⟩ e
    simp only [List.nil_append] at h1
    rw [h1] at hlog
    have hmem : Event.definition word_id text none ∈ new := by
      rw [hlog]; simp
    rcases h2 with ⟨hc, -⟩ | ⟨hr, good, bad, hn, hg, -⟩
    · exact absurd (hc _ hmem) (by simp [Event.failed])
    · refine ⟨?_, hr⟩
      rcases List.eq_nil_or_concat post with hp | ⟨post1, last, hp⟩
      · exact hp
      · exfalso
        rw [hn, hp] at hlog
        have hlog2 : good ++ [bad] =
            (pre ++ Event.definition word_id text none :: post1) ++ [last] := by
          rw [hlog]; simp
        have hgood := (List.append_inj' hlog2 rfl).1
        have hin : Event.definition word_id text none ∈ good := by
          rw [hgood]; simp
        exact absurd (hg _ hin) (by simp [Event.failed])
  · intro defs hsucc hnorm
    obtain ⟨word_id, hid⟩ := Option.ne_none_iff_exists'.mp
      (hsucc db (.word e.title e.pos e.pron_uk e.pron_us) rfl)
    have hh := insertHeaderData_some conn ⟨db, [], count + 1⟩
      e.title e.pos e.pron_uk e.pron_us word_id hid
    obtain ⟨w2, ids, h1, h2, h3, -⟩ := parseDefinitionBody_ok conn word_id
      hsucc e.blocks defs hnorm
      { db := (conn db (.word e.title e.pos e.pron_uk e.pron_us)).2,
        log := [] ++ [.word e.title e.pos e.pron_uk e.pron_us (some word_id)],
        count := count + 1 }
    have hlog : (parseEntry conn ⟨db, [], count⟩ e).1.log =
        .word e.title e.pos e.pron_uk e.pron_us (some word_id) ::
          expectedInserts word_id (defs.zip ids) := by
      simp only [parseEntry, collectHeaderData, hh, h1]
      rw [h3]
      simp
    have hre := parseEntry_replay conn db count e
    rw [hlog] at hre
    refine ⟨word_id, ids, h2, ?_, hlog, hre⟩
    simp only [parseEntry, collectHeaderData, hh, h1]

/-- Instances of C9: a store that fails at once, a store that fails after the word
insert, and a store that fails every example insert and counts the statements it
receives. -/
theorem parseEntry_failure_policy_witness :
    ((failAfter 0 0 (.word sampleEntry.title sampleEntry.pos sampleEntry.pron_uk
        sampleEntry.pron_us)).1 = none ∧
      (parseEntry (failAfter 0) ⟨0, [], 0⟩ sampleEntry).2 = .error (.exit 1) ∧
      (parseEntry (failAfter 0) ⟨0, [], 0⟩ sampleEntry).1.log =
        [.word sampleEntry.title sampleEntry.pos sampleEntry.pron_uk sampleEntry.pron_us
          none] ∧
      (parseEntry (failAfter 0) ⟨0, [], 0⟩ sampleEntry).1.db =
        (failAfter 0 0 (.word sampleEntry.title sampleEntry.pos sampleEntry.pron_uk
          sampleEntry.pron_us)).2) ∧
    ((parseEntry (failAfter 1) ⟨0, [], 0⟩ sampleEntry).1.log =
        [.word "cat".toList "noun".toList "kæt".toList "kæt".toList (some 1)] ++
          .definition 1 "a small animal".toList none :: [] ∧
      ([] : List Event) = [] ∧
      (parseEntry (failAfter 1) ⟨0, [], 0⟩ sampleEntry).2 = .error (.exit 1)) ∧
    ((∀ (db : Nat × Nat) (q : Insert), q.isExamp = false → (noExampConn db q).1 ≠ none) ∧
      (noExampConn (2, 2) (.examp 2 "The cat sat".toList)).1 = none ∧
      Normalises sampleEntry.blocks [⟨"a small animal".toList, ["The cat sat".toList]⟩] ∧
      (parseEntry noExampConn ⟨(0, 0), [], 0⟩ sampleEntry).1.log =
        [.word "cat".toList "noun".toList "kæt".toList "kæt".toList (some 1),
         .definition 1 "a small animal".toList (some 2),
         .examp 2 "The cat sat".toList] ∧
      (parseEntry noExampConn ⟨(0, 0), [], 0⟩ sampleEntry).1.db = (2, 3) ∧
      (parseEntry noExampConn ⟨(0, 0), [], 0⟩ sampleEntry).2 = .ok ()) :=
  have hno : ∀ (db : Nat × Nat) (q : Insert), q.isExamp = false →
      (noExampConn db q).1 ≠ none := by
    intro db q hq
    cases q <;> simp [noExampConn, Insert.isExamp] at hq ⊢
  have hnorm : Normalises sampleEntry.blocks
      [⟨"a small animal".toList, ["The cat sat".toList]⟩] :=
    List.Forall₂.cons ⟨by decide, List.Forall₂.cons (by decide) List.Forall₂.nil⟩
      List.Forall₂.nil
  ⟨⟨by decide, (parseEntry_failure_policy (failAfter 0) 0 0 sampleEntry).2.1 (by decide)⟩,
    ⟨by decide,
      (parseEntry_failure_policy (failAfter 1) 0 0 sampleEntry).2.2.1
        [.word "cat".toList "noun".toList "kæt".toList "kæt".toList (some 1)] []
        1 "a small animal".toList (by decide)⟩,
    ⟨hno, by decide, hnorm, by decide, by decide,
      match (parseEntry_failure_policy noExampConn (0, 0) 0 sampleEntry).2.2.2 _ hno hnorm with
      | ⟨_, _, _, hret, _⟩ => hret⟩⟩

end Parser
